import Mathlib

/-!
A shallow embedding of `custom::BST` (src/bst.h)

The C++ class is a pointer graph: every `BNode` lives at an address, holds
`pLeft`, `pRight`, `pParent` pointers and a colour bit, and the `BST` object
holds `root` and `numElements`.  The embedding keeps that shape:

* `Mem T` is the free store, a map from addresses to live nodes
  (`none` = nothing allocated there, or already deleted);
* a pointer is an `Option Nat`, `none` being `nullptr`;
* every member function is a function on `Mem T` and the object it is called
  on, returning `Except Fault _`: reading or writing through `nullptr` or
  through a deleted node is a `Fault`, as is running a `while` loop or a
  recursion longer than the supplied fuel.
-/

namespace custom

/-- Ways in which running a member function can fail to return normally. -/
inductive Fault
  | nullDeref      -- a member of `nullptr` was read or written
  | danglingDeref  -- a member of a node that is not live was read or written
  | assertFailed   -- `assert(false && "Unreachable")` was reached
  | outOfFuel      -- a loop or recursion ran longer than the fuel given
  deriving DecidableEq, Repr

/-- The members of `BST<T>`: `BNode* root` and `size_t numElements`. -/
structure BST where
  root : Option Nat
  numElements : Nat
  deriving DecidableEq, Repr

namespace BST

/-- The data members of `BST<T>::BNode` (bst.h:180-184). -/
structure BNode (T : Type) where
  data : T
  pLeft : Option Nat
  pRight : Option Nat
  pParent : Option Nat
  isRed : Bool
  deriving DecidableEq, Repr

/-- The data member of `BST<T>::iterator` (bst.h:250): `BNode* pNode`. -/
structure iterator where
  pNode : Option Nat
  deriving DecidableEq, Repr

end BST

/-- The free store: which node, if any, is live at each address. -/
abbrev Mem (T : Type) := Nat → Option (BST.BNode T)

namespace Mem

variable {T : Type}

/-- Reading `*p`. -/
def deref (m : Mem T) : Option Nat → Except Fault (BST.BNode T)
  | none => .error .nullDeref
  | some a =>
    match m a with
    | none => .error .danglingDeref
    | some n => .ok n

/-- The store after the node at address `a` has been overwritten with `n`. -/
def put (m : Mem T) (a : Nat) (n : BST.BNode T) : Mem T :=
  fun b => if b = a then some n else m b

/-- Reading `p->pLeft`. -/
def getLeft (m : Mem T) (p : Option Nat) : Except Fault (Option Nat) := do
  let n ← m.deref p
  pure n.pLeft

/-- Reading `p->pRight`. -/
def getRight (m : Mem T) (p : Option Nat) : Except Fault (Option Nat) := do
  let n ← m.deref p
  pure n.pRight

/-- Reading `p->pParent`. -/
def getParent (m : Mem T) (p : Option Nat) : Except Fault (Option Nat) := do
  let n ← m.deref p
  pure n.pParent

/-- The assignment `p->pLeft = v`. -/
def setLeft (m : Mem T) (p : Option Nat) (v : Option Nat) : Except Fault (Mem T) :=
  match p with
  | none => .error .nullDeref
  | some a =>
    match m a with
    | none => .error .danglingDeref
    | some n => .ok (m.put a { n with pLeft := v })

/-- The assignment `p->pRight = v`. -/
def setRight (m : Mem T) (p : Option Nat) (v : Option Nat) : Except Fault (Mem T) :=
  match p with
  | none => .error .nullDeref
  | some a =>
    match m a with
    | none => .error .danglingDeref
    | some n => .ok (m.put a { n with pRight := v })

/-- The assignment `p->pParent = v`. -/
def setParent (m : Mem T) (p : Option Nat) (v : Option Nat) : Except Fault (Mem T) :=
  match p with
  | none => .error .nullDeref
  | some a =>
    match m a with
    | none => .error .danglingDeref
    | some n => .ok (m.put a { n with pParent := v })

/-- The statement `delete p` for a non-null `p`: the node stops being live. -/
def free (m : Mem T) (a : Nat) : Except Fault (Mem T) :=
  match m a with
  | none => .error .danglingDeref
  | some _ => .ok (fun b => if b = a then none else m b)

end Mem

namespace BST

variable {T : Type}

/-! ## BNode members -/

/-- Member `BNode::isRightChild` (bst.h:161), called on the node at address `self`:
`return pParent == pNode && pNode->pRight == this;` -/
def BNode.isRightChild (m : Mem T) (self : Nat) (pNode : Option Nat) : Except Fault Bool := do
  let pParent ← m.getParent (some self)
  if pParent = pNode then
    let r ← m.getRight pNode
    pure (decide (r = some self))
  else
    pure false

/-- Member `BNode::isLeftChild` (bst.h:162), called on the node at address `self`:
`return pParent == pNode && pNode->pLeft == this;` -/
def BNode.isLeftChild (m : Mem T) (self : Nat) (pNode : Option Nat) : Except Fault Bool := do
  let pParent ← m.getParent (some self)
  if pParent = pNode then
    let l ← m.getLeft pNode
    pure (decide (l = some self))
  else
    pure false

/-- Member `BNode::addLeft(BNode*)` (bst.h:519-525), called on the node at `self`. -/
def BNode.addLeft (m : Mem T) (self : Nat) (pNode : Option Nat) : Except Fault (Mem T) := do
  let m ← (match pNode with
    | some _ => m.setParent pNode (some self)
    | none => pure m)
  m.setLeft (some self) pNode

/-- Member `BNode::addRight(BNode*)` (bst.h:531-537), called on the node at `self`. -/
def BNode.addRight (m : Mem T) (self : Nat) (pNode : Option Nat) : Except Fault (Mem T) := do
  let m ← (match pNode with
    | some _ => m.setParent pNode (some self)
    | none => pure m)
  m.setRight (some self) pNode

/-- Member `BNode::computeSize` (bst.h:696-702), called on the node at `self`. -/
def BNode.computeSize : Nat → Mem T → Nat → Except Fault Nat
  | 0, _, _ => .error .outOfFuel
  | fuel + 1, m, self => do
    let pLeft ← m.getLeft (some self)
    let pRight ← m.getRight (some self)
    let nl ← (match pLeft with
      | none => pure 0
      | some l => BNode.computeSize fuel m l)
    let nr ← (match pRight with
      | none => pure 0
      | some r => BNode.computeSize fuel m r)
    pure (1 + nl + nr)

/-- Member `BNode::balance` (bst.h:709-725): the body holds comments only, so the
call returns without reading or writing anything. -/
def BNode.balance (m : Mem T) (_self : Nat) : Except Fault (Mem T) :=
  pure m

/-! ## iterator members -/

/-- The loop `while (pNode->pLeft) pNode = pNode->pLeft;` from address `a`. -/
def descendLeft : Nat → Mem T → Nat → Except Fault Nat
  | 0, _, _ => .error .outOfFuel
  | fuel + 1, m, a => do
    let l ← m.getLeft (some a)
    match l with
    | none => pure a
    | some b => descendLeft fuel m b

/-- The loop `while (pNode->pRight) pNode = pNode->pRight;` from address `a`. -/
def descendRight : Nat → Mem T → Nat → Except Fault Nat
  | 0, _, _ => .error .outOfFuel
  | fuel + 1, m, a => do
    let r ← m.getRight (some a)
    match r with
    | none => pure a
    | some b => descendRight fuel m b

/-- The loop of bst.h:765-766,
`while (pNode->pParent && pNode->isRightChild(pNode->pParent)) pNode = pNode->pParent;` -/
def ascendWhileRight : Nat → Mem T → Nat → Except Fault Nat
  | 0, _, _ => .error .outOfFuel
  | fuel + 1, m, a => do
    let p ← m.getParent (some a)
    match p with
    | none => pure a
    | some b =>
      if (← BNode.isRightChild m a (some b)) then ascendWhileRight fuel m b
      else pure a

/-- The loop of bst.h:806-807,
`while (pNode->pParent && pNode->isLeftChild(pNode->pParent)) pNode = pNode->pParent;` -/
def ascendWhileLeft : Nat → Mem T → Nat → Except Fault Nat
  | 0, _, _ => .error .outOfFuel
  | fuel + 1, m, a => do
    let p ← m.getParent (some a)
    match p with
    | none => pure a
    | some b =>
      if (← BNode.isLeftChild m a (some b)) then ascendWhileLeft fuel m b
      else pure a

/-- Member `iterator::operator++()` (bst.h:739-774). -/
def iterator.increment (fuel : Nat) (m : Mem T) (it : iterator) : Except Fault iterator :=
  match it.pNode with
  | none => pure it
  | some a => do
    let r ← m.getRight (some a)
    match r with
    | some b => do
      -- Case 1: have a right child
      let c ← descendLeft fuel m b
      pure ⟨some c⟩
    | none => do
      -- Case 2: no right child and the node is its parent's left child
      let p ← m.getParent (some a)
      if (← BNode.isLeftChild m a p) then
        pure ⟨p⟩
      else
        -- Case 3: no right child and the node is its parent's right child
        let p ← m.getParent (some a)
        if (← BNode.isRightChild m a p) then
          let c ← ascendWhileRight fuel m a
          let q ← m.getParent (some c)
          pure ⟨q⟩
        else
          .error .assertFailed

/-- Member `iterator::operator--()` (bst.h:780-815). -/
def iterator.decrement (fuel : Nat) (m : Mem T) (it : iterator) : Except Fault iterator :=
  match it.pNode with
  | none => pure it
  | some a => do
    let l ← m.getLeft (some a)
    match l with
    | some b => do
      -- Case 1: have a left child
      let c ← descendRight fuel m b
      pure ⟨some c⟩
    | none => do
      -- Case 2: no left child and the node is its parent's right child
      let p ← m.getParent (some a)
      if (← BNode.isRightChild m a p) then
        pure ⟨p⟩
      else
        -- Case 3: no left child and the node is its parent's left child
        let p ← m.getParent (some a)
        if (← BNode.isLeftChild m a p) then
          let c ← ascendWhileLeft fuel m a
          let q ← m.getParent (some c)
          pure ⟨q⟩
        else
          .error .assertFailed

/-! ## BST members -/

/-- The default constructor `BST()` (bst.h:266-267). -/
def construct : BST :=
  { root := none, numElements := 0 }

/-- Member `end()` (bst.h:88): `return iterator(nullptr);` -/
def «end» (_t : BST) : iterator :=
  ⟨none⟩

/-- Member `size()` (bst.h:115): `return numElements;` -/
def size (t : BST) : Nat :=
  t.numElements

/-- Member `empty()` (bst.h:114): `return size() == 0;` -/
def empty (t : BST) : Bool :=
  t.size == 0

/-- Member `begin()` (bst.h:481-493). -/
def begin (fuel : Nat) (m : Mem T) (t : BST) : Except Fault iterator :=
  if t.empty then
    pure t.end
  else
    match t.root with
    | none => .error .nullDeref        -- `p->pLeft` with `p == nullptr`
    | some a => do
      let p ← descendLeft fuel m a
      pure ⟨some p⟩

/-- Member `find(const T&)` (bst.h:500-504): the body is `return end();`. -/
def find (_m : Mem T) (t : BST) (_v : T) : iterator :=
  t.end

/-- Member `insert(const T&, bool keepUnique)` (bst.h:366-372): the body builds
`pairReturn(end(), false)` and returns it; neither the free store nor the
members of the tree are touched. -/
def insert (m : Mem T) (t : BST) (_v : T) (_keepUnique : Bool) :
    Mem T × BST × (iterator × Bool) :=
  (m, t, (t.end, false))

/-- Member `insert(T&&, bool keepUnique)` (bst.h:374-379): same body as the
overload taking `const T&`. -/
def insertMove (m : Mem T) (t : BST) (_v : T) (_keepUnique : Bool) :
    Mem T × BST × (iterator × Bool) :=
  (m, t, (t.end, false))

/-- Member `erase(iterator&)` (bst.h:385-447).  The function writes neither
`root` nor `numElements`; the tree object is returned next to the new free
store so that callers can keep threading the state. -/
def erase (fuel : Nat) (m : Mem T) (t : BST) (it : iterator) :
    Except Fault (Mem T × BST × iterator) :=
  -- If the iterator is at the end, do nothing
  if it = t.end then
    pure (m, t, t.end)
  else do
    -- `iterator itReturn = it; ++itReturn;`
    let itReturn ← iterator.increment fuel m it
    let pDelete := it.pNode
    let dl ← m.getLeft pDelete
    let dr ← m.getRight pDelete
    match pDelete, dl, dr with
    | none, _, _ => .error .nullDeref
    | some d, none, none => do
      -- Case 1: No Children
      let pp ← m.getParent pDelete
      let m ← (match pp with
        | none => pure m
        | some _ => do
          if (← BNode.isLeftChild m d pp) then m.setLeft pp none
          else m.setRight pp none)
      let m ← m.free d
      pure (m, t, itReturn)
    | some d, some l, none => do
      -- Case 2: One Child, only left child
      let pp ← m.getParent pDelete
      let m ← m.setParent (some l) pp
      let pp ← m.getParent pDelete
      let m ← (match pp with
        | none => pure m
        | some _ => do
          if (← BNode.isLeftChild m d pp) then
            let c ← m.getLeft pDelete
            m.setLeft pp c
          else
            let c ← m.getLeft pDelete
            m.setRight pp c)
      let m ← m.free d
      pure (m, t, itReturn)
    | some d, none, some r => do
      -- Case 2: One Child, only right child
      let pp ← m.getParent pDelete
      let m ← m.setParent (some r) pp
      let pp ← m.getParent pDelete
      let m ← (match pp with
        | none => pure m
        | some _ => do
          if (← BNode.isLeftChild m d pp) then
            let c ← m.getRight pDelete
            m.setLeft pp c
          else
            let c ← m.getRight pDelete
            m.setRight pp c)
      let m ← m.free d
      pure (m, t, itReturn)
    | some _, some _, some _ =>
      -- Case 3: Two Children (bst.h:443-446 holds no statement but the return)
      pure (m, t, itReturn)

/-- The recursive helper `clear(BNode*& pNode)` (bst.h:464-475).  The pointer is
passed by reference; the callee ends with `pNode = nullptr`, which for the two
recursive calls is a write to the `pLeft` / `pRight` member of the node being
cleared, done here right after each call returns. -/
def clearNode : Nat → Mem T → Option Nat → Except Fault (Mem T)
  | _, m, none => pure m
  | 0, _, some _ => .error .outOfFuel
  | fuel + 1, m, some a => do
    let l ← m.getLeft (some a)
    let m ← clearNode fuel m l
    let m ← (match l with
      | none => pure m
      | some _ => m.setLeft (some a) none)
    let r ← m.getRight (some a)
    let m ← clearNode fuel m r
    let m ← (match r with
      | none => pure m
      | some _ => m.setRight (some a) none)
    m.free a

/-- Member `clear()` (bst.h:453-458): `clear(root); numElements = 0;` -/
def clear (fuel : Nat) (m : Mem T) (t : BST) : Except Fault (Mem T × BST) := do
  let m ← clearNode fuel m t.root
  pure (m, { root := none, numElements := 0 })

/-- Member `swap(BST& rhs)` (bst.h:355-360); returns `(*this, rhs)` afterwards. -/
def swap (t rhs : BST) : BST × BST :=
  ({ root := rhs.root, numElements := rhs.numElements },
   { root := t.root, numElements := t.numElements })

/-- The move constructor `BST(BST&& rhs)` (bst.h:286-294); returns the new
object and `rhs` as the constructor leaves it. -/
def moveConstruct (rhs : BST) : BST × BST :=
  ({ root := rhs.root, numElements := 0 }, { root := none, numElements := 0 })

/-- The copy assignment `operator=(const BST& rhs)` (bst.h:323-327): the body
is `return *this;`. -/
def assign (t : BST) (_rhs : BST) : BST :=
  t

/-- The copy constructor `BST(const BST& rhs)` (bst.h:273-280):
`numElements = 0; root = nullptr; *this = rhs;` -/
def copyConstruct (rhs : BST) : BST :=
  assign { root := none, numElements := 0 } rhs

/-- The move assignment `operator=(BST&& rhs)` (bst.h:343-349):
`clear(); swap(rhs); return *this;`.  The argument is a reference: `rhs` is
`some r` for another tree object with members `r`, and `none` when it is the
object assigned to (`t = std::move(t)`), in which case `clear()` has emptied it
before `swap` reads it.  Returns the store, `*this` and `rhs`. -/
def assignMove (fuel : Nat) (m : Mem T) (t : BST) (rhs : Option BST) :
    Except Fault (Mem T × BST × BST) := do
  let (m, t) ← clear fuel m t
  let other :=
    match rhs with
    | some r => r
    | none => t
  let (t, other) := swap t other
  pure (m, t, other)

/-- The assignment `operator=(const std::initializer_list<T>& il)`
(bst.h:333-337): the body is the single statement `clear();`, and `il` is never
read.  Control then reaches the closing brace with no `return`; what is
returned here is the state at that brace. -/
def assignList (fuel : Nat) (m : Mem T) (t : BST) (_il : List T) :
    Except Fault (Mem T × BST) :=
  clear fuel m t

/-- The constructor `BST(const std::initializer_list<T>& il)` (bst.h:300-307):
`numElements = 0; root = nullptr; *this = il;` -/
def constructList (fuel : Nat) (m : Mem T) (il : List T) : Except Fault (Mem T × BST) :=
  assignList fuel m { root := none, numElements := 0 } il

/-! ## Client loops

The loops below are not in bst.h; they are the caller-side loops that
section 8 of the specification runs against the public interface. -/

/-- Repeated insertion of the values of a list, in order, each with the same
`keepUnique` flag: `for (v : vs) t.insert(v, keepUnique);` -/
def insertAll (m : Mem T) (t : BST) (keepUnique : Bool) : List T → Mem T × BST
  | [] => (m, t)
  | v :: vs =>
    let r := insert m t v keepUnique
    insertAll r.1 r.2.1 keepUnique vs

/-- An arbitrary sequence of `insert` calls, each with its own flag. -/
def insertCalls (m : Mem T) (t : BST) : List (T × Bool) → Mem T × BST
  | [] => (m, t)
  | c :: cs =>
    let r := insert m t c.1 c.2
    insertCalls r.1 r.2.1 cs

/-- The loop `for (; it != end(); ++it) out.push_back(*it);`, at most `steps`
iterations. -/
def walkFrom : Nat → Nat → Mem T → iterator → Except Fault (List T)
  | 0, _, _, _ => .error .outOfFuel
  | steps + 1, fuel, m, it =>
    match it.pNode with
    | none => pure []
    | some a => do
      let n ← m.deref (some a)
      let it ← iterator.increment fuel m it
      let rest ← walkFrom steps fuel m it
      pure (n.data :: rest)

/-- The walk from `begin()` to `end()` by repeated `++`. -/
def walk (steps fuel : Nat) (m : Mem T) (t : BST) : Except Fault (List T) := do
  let it ← begin fuel m t
  walkFrom steps fuel m it

/-- The loop `while (!t.empty()) { it = t.begin(); t.erase(it); }`, at most
`steps` iterations. -/
def eraseAll : Nat → Nat → Mem T → BST → Except Fault (Mem T × BST)
  | 0, _, _, _ => .error .outOfFuel
  | steps + 1, fuel, m, t =>
    if t.empty then
      pure (m, t)
    else do
      let it ← begin fuel m t
      let r ← erase fuel m t it
      eraseAll steps fuel r.1 r.2.1

/-- The loop `for (;;) { visit(it); if (it == stop) break; ++it; }`, at most
`steps` iterations: the iterators visited going forward from `it` to `stop`. -/
def forwardUntil : Nat → Nat → Mem T → iterator → iterator → Except Fault (List iterator)
  | 0, _, _, _, _ => .error .outOfFuel
  | steps + 1, fuel, m, it, stop =>
    if it = stop then
      pure [it]
    else do
      let next ← iterator.increment fuel m it
      let rest ← forwardUntil steps fuel m next stop
      pure (it :: rest)

/-- The loop `for (;;) { visit(it); if (it == stop) break; --it; }`, at most
`steps` iterations: the iterators visited going backward from `it` to `stop`. -/
def backwardUntil : Nat → Nat → Mem T → iterator → iterator → Except Fault (List iterator)
  | 0, _, _, _, _ => .error .outOfFuel
  | steps + 1, fuel, m, it, stop =>
    if it = stop then
      pure [it]
    else do
      let next ← iterator.decrement fuel m it
      let rest ← backwardUntil steps fuel m next stop
      pure (it :: rest)

end BST

/-! ## The tree a store holds below a pointer

The properties of the specification (well-formed links, in-order sequence,
red-black rules) speak of the tree of nodes reachable from `root`.  `Tree` is
that tree as a value, and `reify` reads it off the store. -/

/-- A binary tree of nodes: address, value and colour at every node. -/
inductive Tree (T : Type)
  | nil
  | node (l : Tree T) (addr : Nat) (data : T) (isRed : Bool) (r : Tree T)
  deriving DecidableEq, Repr

namespace Tree

variable {T : Type}

/-- The pointer to the top node of the tree, `nullptr` for the empty tree. -/
def rootPtr : Tree T → Option Nat
  | nil => none
  | node _ a _ _ _ => some a

/-- The addresses of the nodes, in order (left subtree, node, right subtree). -/
def addrs : Tree T → List Nat
  | nil => []
  | node l a _ _ r => l.addrs ++ a :: r.addrs

/-- The values of the nodes, in order. -/
def values : Tree T → List T
  | nil => []
  | node l _ v _ r => l.values ++ v :: r.values

/-- The number of nodes. -/
def size : Tree T → Nat
  | nil => 0
  | node l _ _ _ r => l.size + 1 + r.size

/-- The number of nodes on the longest path from the top to an absent child. -/
def height : Tree T → Nat
  | nil => 0
  | node l _ _ _ r => max l.height r.height + 1

/-- Whether the top node is red; the empty tree counts as black. -/
def isRedRoot : Tree T → Bool
  | nil => false
  | node _ _ _ c _ => c

/-- Invariant 2: the root, if present, is black. -/
def rootBlack (t : Tree T) : Bool :=
  !t.isRedRoot

/-- Invariant 3: no red node has a red child. -/
def noRedRed : Tree T → Bool
  | nil => true
  | node l _ _ c r =>
    (!c || (!l.isRedRoot && !r.isRedRoot)) && l.noRedRed && r.noRedRed

/-- The number of black nodes on every path from the top to an absent child,
if that number is the same on all of them. -/
def blackHeight : Tree T → Option Nat
  | nil => some 0
  | node l _ _ c r =>
    match l.blackHeight, r.blackHeight with
    | some hl, some hr => if hl = hr then some (hl + (if c then 0 else 1)) else none
    | _, _ => none

/-- Invariant 4: every path from the root to an absent child passes through
the same number of black nodes. -/
def blackBalanced (t : Tree T) : Bool :=
  t.blackHeight.isSome

/-- Invariant 5: at every node the values of the left subtree order strictly
before the node's value and no value of the right subtree orders before it. -/
def ordered [LinearOrder T] : Tree T → Bool
  | nil => true
  | node l _ v _ r =>
    l.values.all (fun x => decide (x < v)) && r.values.all (fun y => decide (¬ y < v))
      && l.ordered && r.ordered

/-- Red-black invariants 2 to 5 together (invariant 1, every node is red or
black, holds by the type of `isRed`). -/
def redBlack [LinearOrder T] (t : Tree T) : Bool :=
  t.rootBlack && t.noRedRed && t.blackBalanced && t.ordered

/-- The store `m` holds the tree: every node is live at its address with the
value and colour the tree gives it, its child pointers are the top nodes of its
subtrees and its `pParent` is the node above it (`parent` for the top node). -/
def Rep (m : Mem T) : Tree T → Option Nat → Prop
  | nil, _ => True
  | node l a v c r, parent =>
    m a = some { data := v, pLeft := l.rootPtr, pRight := r.rootPtr, pParent := parent,
                 isRed := c } ∧
      l.Rep m (some a) ∧ r.Rep m (some a)

/-- The first node in order: the end of the chain of left children. -/
def leftmost : Tree T → Option Nat
  | nil => none
  | node l a _ _ _ =>
    match l.leftmost with
    | some x => some x
    | none => some a

/-- The last node in order: the end of the chain of right children. -/
def rightmost : Tree T → Option Nat
  | nil => none
  | node _ a _ _ r =>
    match r.rightmost with
    | some x => some x
    | none => some a

/-- The in-order successor of the node at address `n`, described by position:
the leftmost node of its right subtree when it has a right child, otherwise the
nearest ancestor of which it lies in the left subtree.  `up` is that ancestor
for the top node of the tree (`none` when there is none). -/
def successor : Tree T → Option Nat → Nat → Option Nat
  | nil, _, _ => none
  | node l a _ _ r, up, n =>
    if n = a then
      match r.leftmost with
      | some x => some x
      | none => up
    else if n ∈ l.addrs then l.successor (some a) n
    else r.successor up n

/-- The in-order predecessor of the node at address `n`, described by position:
the rightmost node of its left subtree when it has a left child, otherwise the
nearest ancestor of which it lies in the right subtree.  `up` is that ancestor
for the top node of the tree (`none` when there is none). -/
def predecessor : Tree T → Option Nat → Nat → Option Nat
  | nil, _, _ => none
  | node l a _ _ r, up, n =>
    if n = a then
      match l.rightmost with
      | some x => some x
      | none => up
    else if n ∈ l.addrs then l.predecessor up n
    else r.predecessor (some a) n

/-- The nodes in order, each as its address and its value. -/
def entries : Tree T → List (Nat × T)
  | nil => []
  | node l a v _ r => l.entries ++ (a, v) :: r.entries

/-- The tree without the node at address `n`, when that node has at most one
child: the child subtree, if any, takes the node's place.  A node with two
children is left where it is. -/
def splice : Tree T → Nat → Tree T
  | nil, _ => nil
  | node l a v c r, n =>
    if a = n then
      match l, r with
      | nil, r => r
      | l, nil => l
      | l, r => node l a v c r
    else
      node (l.splice n) a v c (r.splice n)

end Tree

/-- Read the tree below pointer `p` off the store, checking on the way that
every node is live and that its `pParent` is the node it was reached from
(`parent`, `nullptr` for the root).  Fails on a dead node, a wrong parent link or
a path longer than `fuel`. -/
def reify {T : Type} : Nat → Mem T → Option Nat → Option Nat → Option (Tree T)
  | _, _, none, _ => some .nil
  | 0, _, some _, _ => none
  | fuel + 1, m, some a, parent =>
    match m a with
    | none => none
    | some n =>
      if n.pParent = parent then
        match reify fuel m n.pLeft (some a), reify fuel m n.pRight (some a) with
        | some l, some r => some (.node l a n.data n.isRed r)
        | _, _ => none
      else none

/-- A store and a tree object are well formed when the nodes reachable from
`root` form a tree: all live, no node reached twice, and parent and child links
mutually consistent.  `tr` is that tree. -/
def WellFormed {T : Type} (m : Mem T) (t : BST) (tr : Tree T) : Prop :=
  (∃ fuel, reify fuel m t.root none = some tr) ∧ tr.addrs.Nodup

/-- The tree object satisfies red-black invariants 1 to 5. -/
def RedBlack {T : Type} [LinearOrder T] (m : Mem T) (t : BST) : Prop :=
  ∃ tr, WellFormed m t tr ∧ tr.redBlack = true

/-! ## Concrete stores used to run the code -/

/-- The call returned normally, and its result satisfies `P`. -/
def Returns {α : Type} (x : Except Fault α) (P : α → Prop) : Prop :=
  match x with
  | .ok a => P a
  | .error _ => False

namespace Example

/-- The store in which no node is live. -/
def mem0 : Mem Nat :=
  fun _ => none

/-- One black node `10` at address 1. -/
def mem1 : Mem Nat
  | 1 => some { data := 10, pLeft := none, pRight := none, pParent := none, isRed := false }
  | _ => none

/-- The tree object over `mem1`: root at address 1, one element. -/
def bst1 : BST :=
  { root := some 1, numElements := 1 }

/-- A black root `10` at address 1 with a red left child `5` at address 2. -/
def mem2 : Mem Nat
  | 1 => some { data := 10, pLeft := some 2, pRight := none, pParent := none, isRed := false }
  | 2 => some { data := 5, pLeft := none, pRight := none, pParent := some 1, isRed := true }
  | _ => none

/-- The tree object over `mem2`: root at address 1, two elements. -/
def bst2 : BST :=
  { root := some 1, numElements := 2 }

/-- A black root `10` at address 1 with black children `5` at address 2 and
`15` at address 3. -/
def mem3 : Mem Nat
  | 1 => some { data := 10, pLeft := some 2, pRight := some 3, pParent := none, isRed := false }
  | 2 => some { data := 5, pLeft := none, pRight := none, pParent := some 1, isRed := false }
  | 3 => some { data := 15, pLeft := none, pRight := none, pParent := some 1, isRed := false }
  | _ => none

/-- The tree object over `mem3`: root at address 1, three elements. -/
def bst3 : BST :=
  { root := some 1, numElements := 3 }

/-- A black root `10` at address 1 with black children `5` at address 2 and
`15` at address 3; `5` has a red left child `3` at address 4. -/
def mem4 : Mem Nat
  | 1 => some { data := 10, pLeft := some 2, pRight := some 3, pParent := none, isRed := false }
  | 2 => some { data := 5, pLeft := some 4, pRight := none, pParent := some 1, isRed := false }
  | 3 => some { data := 15, pLeft := none, pRight := none, pParent := some 1, isRed := false }
  | 4 => some { data := 3, pLeft := none, pRight := none, pParent := some 2, isRed := true }
  | _ => none

/-- The tree object over `mem4`: root at address 1, four elements. -/
def bst4 : BST :=
  { root := some 1, numElements := 4 }

/-- One red node `10` at address 1. -/
def mem5 : Mem Nat
  | 1 => some { data := 10, pLeft := none, pRight := none, pParent := none, isRed := true }
  | _ => none

/-- The tree object over `mem5`: root at address 1, one element. -/
def bst5 : BST :=
  { root := some 1, numElements := 1 }

/-- A black root `10` at address 1, its red left child `5` at address 2, and
the red left child `3` of that at address 4: the node `3` is red below a red
parent. -/
def mem6 : Mem Nat
  | 1 => some { data := 10, pLeft := some 2, pRight := none, pParent := none, isRed := false }
  | 2 => some { data := 5, pLeft := some 4, pRight := none, pParent := some 1, isRed := true }
  | 4 => some { data := 3, pLeft := none, pRight := none, pParent := some 2, isRed := true }
  | _ => none

/-- The tree object over `mem6`: root at address 1, three elements. -/
def bst6 : BST :=
  { root := some 1, numElements := 3 }

/-- The tree held by `mem1`. -/
def tree1 : Tree Nat :=
  .node .nil 1 10 false .nil

/-- The tree held by `mem2`. -/
def tree2 : Tree Nat :=
  .node (.node .nil 2 5 true .nil) 1 10 false .nil

/-- The tree held by `mem3`. -/
def tree3 : Tree Nat :=
  .node (.node .nil 2 5 false .nil) 1 10 false (.node .nil 3 15 false .nil)

/-- The tree held by `mem4`. -/
def tree4 : Tree Nat :=
  .node (.node (.node .nil 4 3 true .nil) 2 5 false .nil) 1 10 false (.node .nil 3 15 false .nil)

/-- The tree held by `mem5`. -/
def tree5 : Tree Nat :=
  .node .nil 1 10 true .nil

/-- The tree held by `mem6`. -/
def tree6 : Tree Nat :=
  .node (.node (.node .nil 4 3 true .nil) 2 5 true .nil) 1 10 false .nil

end Example

/-! ## General facts about the embedding -/

section Lemmas

variable {T : Type}

open BST

/-- What `insert` returns, for every store, tree, value and flag. -/
theorem insert_eq (m : Mem T) (t : BST) (v : T) (k : Bool) :
    BST.insert m t v k = (m, t, (t.end, false)) :=
  rfl

/-- A sequence of `insert` calls leaves store and tree object as they were. -/
theorem insertCalls_eq (m : Mem T) (t : BST) (cs : List (T × Bool)) :
    insertCalls m t cs = (m, t) := by
  induction cs with
  | nil => rfl
  | cons c cs ih => simpa [insertCalls, BST.insert] using ih

/-- Inserting the values of a list leaves store and tree object as they were. -/
theorem insertAll_eq (m : Mem T) (t : BST) (k : Bool) (vs : List T) :
    insertAll m t k vs = (m, t) := by
  induction vs with
  | nil => rfl
  | cons v vs ih => simpa [insertAll, BST.insert] using ih

/-- More fuel never changes what `reify` reads. -/
theorem reify_mono (m : Mem T) :
    ∀ (f f' : Nat) (p parent : Option Nat) (tr : Tree T),
      f ≤ f' → reify f m p parent = some tr → reify f' m p parent = some tr := by
  intro f
  induction f with
  | zero =>
    intro f' p parent tr _ h
    cases p with
    | none => cases f' <;> simpa [reify] using h
    | some a => simp [reify] at h
  | succ f ih =>
    intro f' p parent tr hle h
    cases p with
    | none => cases f' <;> simpa [reify] using h
    | some a =>
      obtain ⟨g, rfl⟩ : ∃ g, f' = g + 1 := ⟨f' - 1, by omega⟩
      have hg : f ≤ g := by omega
      simp only [reify] at h ⊢
      cases hm : m a with
      | none => simp [hm] at h
      | some n =>
        simp only [hm] at h ⊢
        by_cases hp : n.pParent = parent
        · simp only [hp, if_true] at h ⊢
          cases hl : reify f m n.pLeft (some a) with
          | none => simp [hl] at h
          | some l =>
            cases hr : reify f m n.pRight (some a) with
            | none => simp [hl, hr] at h
            | some r =>
              rw [ih g _ _ l hg hl, ih g _ _ r hg hr]
              simpa [hl, hr] using h
        · simp [hp] at h

/-- The tree below a pointer does not depend on the fuel it was read with. -/
theorem reify_unique (m : Mem T) (f f' : Nat) (p parent : Option Nat) (t1 t2 : Tree T)
    (h1 : reify f m p parent = some t1) (h2 : reify f' m p parent = some t2) : t1 = t2 := by
  have a := reify_mono m f (max f f') p parent t1 (le_max_left _ _) h1
  have b := reify_mono m f' (max f f') p parent t2 (le_max_right _ _) h2
  rw [a] at b
  exact Option.some.inj b

/-- Once the tree below `root` has been read, the red-black invariants of the
tree object are those of that tree. -/
theorem redBlack_of_reify [LinearOrder T] (m : Mem T) (t : BST) (f : Nat) (tr : Tree T)
    (h : reify f m t.root none = some tr) (hrb : RedBlack m t) : tr.redBlack = true := by
  obtain ⟨tr', ⟨⟨f', h'⟩, _⟩, hb⟩ := hrb
  rw [reify_unique m f f' _ _ tr tr' h h']
  exact hb

/-- The member `erase` never writes `root` or `numElements`. -/
theorem erase_object (fuel : Nat) (m : Mem T) (t : BST) (it : iterator)
    (r : Mem T × BST × iterator) (h : erase fuel m t it = .ok r) : r.2.1 = t := by
  unfold erase at h
  split at h
  · cases h; rfl
  · simp only [bind, Except.bind, pure, Except.pure] at h
    repeat' split at h
    all_goals first | (cases h; rfl) | contradiction

/-- On a tree object with `numElements != 0` the loop
`while (!empty()) erase(begin())` never comes to a normal end, however many
iterations it is given. -/
theorem eraseAll_never_returns (steps fuel : Nat) (m : Mem T) (t : BST)
    (ht : t.numElements ≠ 0) (r : Mem T × BST) : eraseAll steps fuel m t ≠ .ok r := by
  induction steps generalizing m with
  | zero => simp [eraseAll]
  | succ steps ih =>
    have he : t.empty = false := by simpa [empty, size] using ht
    simp only [eraseAll, he]
    cases hb : begin fuel m t with
    | error e => simp [bind, Except.bind]
    | ok it =>
      cases hr : erase fuel m t it with
      | error e => simp [bind, Except.bind, hr]
      | ok r' =>
        have := erase_object fuel m t it r' hr
        simp only [bind, Except.bind, Bool.false_eq_true, if_false, hr, this]
        exact ih r'.1

/-! ### Reading and writing one live node -/

theorem deref_of {m : Mem T} {a : Nat} {nd : BNode T} (h : m a = some nd) :
    m.deref (some a) = .ok nd := by
  simp [Mem.deref, h]

theorem getLeft_of {m : Mem T} {a : Nat} {nd : BNode T} (h : m a = some nd) :
    m.getLeft (some a) = .ok nd.pLeft := by
  simp [Mem.getLeft, Mem.deref, h, bind, Except.bind, pure, Except.pure]

theorem getRight_of {m : Mem T} {a : Nat} {nd : BNode T} (h : m a = some nd) :
    m.getRight (some a) = .ok nd.pRight := by
  simp [Mem.getRight, Mem.deref, h, bind, Except.bind, pure, Except.pure]

theorem getParent_of {m : Mem T} {a : Nat} {nd : BNode T} (h : m a = some nd) :
    m.getParent (some a) = .ok nd.pParent := by
  simp [Mem.getParent, Mem.deref, h, bind, Except.bind, pure, Except.pure]

theorem isLeftChild_of {m : Mem T} {a p : Nat} {nd pd : BNode T} (h : m a = some nd)
    (hp : nd.pParent = some p) (hpd : m p = some pd) :
    BNode.isLeftChild m a (some p) = .ok (decide (pd.pLeft = some a)) := by
  simp [BNode.isLeftChild, getParent_of h, getLeft_of hpd, hp, bind, Except.bind, pure,
    Except.pure]

theorem isRightChild_of {m : Mem T} {a p : Nat} {nd pd : BNode T} (h : m a = some nd)
    (hp : nd.pParent = some p) (hpd : m p = some pd) :
    BNode.isRightChild m a (some p) = .ok (decide (pd.pRight = some a)) := by
  simp [BNode.isRightChild, getParent_of h, getRight_of hpd, hp, bind, Except.bind, pure,
    Except.pure]

/-! ### The tree held by a store -/

theorem rootPtr_mem {tr : Tree T} {a : Nat} (h : tr.rootPtr = some a) : a ∈ tr.addrs := by
  cases tr with
  | nil => simp [Tree.rootPtr] at h
  | node l b v c r =>
    simp only [Tree.rootPtr, Option.some.injEq] at h
    simp [Tree.addrs, h]

theorem rootPtr_eq_none {tr : Tree T} (h : tr.rootPtr = none) : tr = .nil := by
  cases tr with
  | nil => rfl
  | node l b v c r => simp [Tree.rootPtr] at h

/-- What `reify` reads is a tree the store holds. -/
theorem reify_sound (m : Mem T) :
    ∀ (f : Nat) (p parent : Option Nat) (tr : Tree T),
      reify f m p parent = some tr → tr.rootPtr = p ∧ tr.Rep m parent := by
  intro f
  induction f with
  | zero =>
    intro p parent tr h
    cases p with
    | none =>
      simp only [reify, Option.some.injEq] at h
      subst h
      exact ⟨rfl, trivial⟩
    | some a => simp [reify] at h
  | succ f ih =>
    intro p parent tr h
    cases p with
    | none =>
      simp only [reify, Option.some.injEq] at h
      subst h
      exact ⟨rfl, trivial⟩
    | some a =>
      simp only [reify] at h
      cases hm : m a with
      | none => simp [hm] at h
      | some n =>
        simp only [hm] at h
        by_cases hp : n.pParent = parent
        · simp only [hp, if_true] at h
          cases hl : reify f m n.pLeft (some a) with
          | none => simp [hl] at h
          | some l =>
            cases hr : reify f m n.pRight (some a) with
            | none => simp [hl, hr] at h
            | some r =>
              simp only [hl, hr, Option.some.injEq] at h
              subst h
              obtain ⟨hl1, hl2⟩ := ih _ _ _ hl
              obtain ⟨hr1, hr2⟩ := ih _ _ _ hr
              refine ⟨rfl, ?_, hl2, hr2⟩
              rw [hm, hl1, hr1, ← hp]
        · simp [hp] at h

/-- A tree the store holds is read back by `reify`, given fuel for its height. -/
theorem reify_complete (m : Mem T) :
    ∀ (tr : Tree T) (parent : Option Nat) (f : Nat),
      tr.Rep m parent → tr.height ≤ f → reify f m tr.rootPtr parent = some tr := by
  intro tr
  induction tr with
  | nil =>
    intro parent f _ _
    cases f <;> rfl
  | node l a v c r ihl ihr =>
    intro parent f h hf
    obtain ⟨g, rfl⟩ : ∃ g, f = g + 1 := ⟨f - 1, by simp [Tree.height] at hf; omega⟩
    simp only [Tree.height] at hf
    obtain ⟨hm, hl, hr⟩ := h
    have hlg : l.height ≤ g := by have := le_max_left l.height r.height; omega
    have hrg : r.height ≤ g := by have := le_max_right l.height r.height; omega
    rw [show (Tree.node l a v c r).rootPtr = some a from rfl]
    simp only [reify, hm, if_true]
    rw [ihl _ _ hl hlg, ihr _ _ hr hrg]

/-- A store that agrees with `m` on the nodes of a tree holds the same tree. -/
theorem Rep_congr {m m' : Mem T} :
    ∀ (tr : Tree T) (parent : Option Nat),
      (∀ x ∈ tr.addrs, m' x = m x) → tr.Rep m parent → tr.Rep m' parent := by
  intro tr
  induction tr with
  | nil => intro _ _ _; trivial
  | node l a v c r ihl ihr =>
    intro parent hx h
    obtain ⟨hm, hl, hr⟩ := h
    refine ⟨?_, ihl _ (fun x hx' => hx x ?_) hl, ihr _ (fun x hx' => hx x ?_) hr⟩
    · rw [hx a (by simp [Tree.addrs])]; exact hm
    · simp [Tree.addrs, hx']
    · simp [Tree.addrs, hx']

/-- A well-formed tree object is a tree the store holds below `root`. -/
theorem WellFormed.rep {m : Mem T} {t : BST} {tr : Tree T} (h : WellFormed m t tr) :
    tr.rootPtr = t.root ∧ tr.Rep m none ∧ tr.addrs.Nodup := by
  obtain ⟨⟨f, hf⟩, hn⟩ := h
  obtain ⟨h1, h2⟩ := reify_sound m f _ _ _ hf
  exact ⟨h1, h2, hn⟩

/-- A tree the store holds below `root`, with no address twice, makes the tree
object well formed. -/
theorem WellFormed.of_rep {m : Mem T} {t : BST} {tr : Tree T} (h1 : tr.rootPtr = t.root)
    (h2 : tr.Rep m none) (h3 : tr.addrs.Nodup) : WellFormed m t tr :=
  ⟨⟨tr.height, by rw [← h1]; exact reify_complete m tr none _ h2 le_rfl⟩, h3⟩

/-! ### Lists of addresses -/

theorem nodup_node {l r : Tree T} {b : Nat} {v : T} {c : Bool}
    (h : (Tree.node l b v c r).addrs.Nodup) :
    l.addrs.Nodup ∧ r.addrs.Nodup ∧ b ∉ l.addrs ∧ b ∉ r.addrs ∧
      ∀ x ∈ l.addrs, x ∉ r.addrs := by
  simp only [Tree.addrs] at h
  rw [List.nodup_append] at h
  obtain ⟨h1, h2, h3⟩ := h
  rw [List.nodup_cons] at h2
  refine ⟨h1, h2.2, ?_, h2.1, ?_⟩
  · intro hb
    exact h3 hb (List.mem_cons_self _ _)
  · intro x hx hx'
    exact h3 hx (List.mem_cons_of_mem _ hx')

theorem addrs_node_ne_nil {l r : Tree T} {b : Nat} {v : T} {c : Bool} :
    (Tree.node l b v c r).addrs ≠ [] := by
  simp [Tree.addrs]

theorem exists_rootPtr_of_addrs_ne_nil {tr : Tree T} (h : tr.addrs ≠ []) :
    ∃ a, tr.rootPtr = some a := by
  cases tr with
  | nil => simp [Tree.addrs] at h
  | node l b v c r => exact ⟨b, rfl⟩

theorem last_of_append {α : Type} (xs ys pre : List α) (n : α) (hy : ys ≠ [])
    (h : xs ++ ys = pre ++ [n]) : ∃ pre', ys = pre' ++ [n] := by
  rcases List.eq_nil_or_concat ys with h0 | ⟨L, b, rfl⟩
  · exact absurd h0 hy
  · rw [List.concat_eq_append] at h ⊢
    rw [← List.append_assoc] at h
    have := List.append_inj_right' h rfl
    simp only [List.cons.injEq, and_true] at this
    exact ⟨L, by rw [this]⟩

theorem head_of_append {α : Type} (xs ys rest : List α) (x : α) (hx : xs ≠ [])
    (h : xs ++ ys = x :: rest) : ∃ rest', xs = x :: rest' := by
  cases xs with
  | nil => exact absurd rfl hx
  | cons y ys' =>
    simp only [List.cons_append, List.cons.injEq] at h
    exact ⟨ys', by rw [h.1]⟩

/-! ### The loops of `operator++` -/

/-- Going down left from the top of a tree ends at its first node in order. -/
theorem descendLeft_head (m : Mem T) :
    ∀ (tr : Tree T) (parent : Option Nat) (fuel a x : Nat) (rest : List Nat),
      tr.rootPtr = some a → tr.Rep m parent → tr.height ≤ fuel → tr.addrs = x :: rest →
      descendLeft fuel m a = .ok x := by
  intro tr
  induction tr with
  | nil => intro _ _ _ _ _ h; simp [Tree.rootPtr] at h
  | node l b v c r ihl _ =>
    intro parent fuel a x rest ha h hf hx
    simp only [Tree.rootPtr, Option.some.injEq] at ha
    subst ha
    simp only [Tree.height] at hf
    obtain ⟨g, rfl⟩ : ∃ g, fuel = g + 1 := ⟨fuel - 1, by omega⟩
    obtain ⟨hm, hl, _⟩ := h
    have hlg : l.height ≤ g := by have := le_max_left l.height r.height; omega
    simp only [descendLeft, getLeft_of hm, bind, Except.bind]
    cases hlp : l.rootPtr with
    | none =>
      rw [rootPtr_eq_none hlp] at hx
      simp only [Tree.addrs, List.nil_append, List.cons.injEq] at hx
      simp [pure, Except.pure, hx.1]
    | some d =>
      simp only [Tree.addrs] at hx
      have hne : l.addrs ≠ [] := by
        intro h0
        have := rootPtr_mem hlp
        rw [h0] at this
        exact absurd this (List.not_mem_nil _)
      obtain ⟨rest', hr'⟩ := head_of_append _ _ _ _ hne hx
      exact ihl _ g d x rest' hlp hl hlg hr'

/-- The last node in order of a tree the store holds: it has no right child,
and it is either the top of the tree or the right child of its parent. -/
theorem last_facts (m : Mem T) :
    ∀ (tr : Tree T) (parent : Option Nat) (b n : Nat) (pre : List Nat),
      tr.rootPtr = some b → tr.Rep m parent → tr.addrs.Nodup → tr.addrs = pre ++ [n] →
      ∃ nd, m n = some nd ∧ nd.pRight = none ∧
        ((n = b ∧ nd.pParent = parent) ∨
         (n ≠ b ∧ ∃ q qd, nd.pParent = some q ∧ m q = some qd ∧ qd.pRight = some n ∧
            qd.pLeft ≠ some n)) := by
  intro tr
  induction tr with
  | nil => intro _ _ _ _ h; simp [Tree.rootPtr] at h
  | node l b' v c r _ ihr =>
    intro parent b n pre hb h hn hx
    simp only [Tree.rootPtr, Option.some.injEq] at hb
    subst hb
    obtain ⟨hm, _, hr⟩ := h
    obtain ⟨_, hnr, _, hbr, hlr⟩ := nodup_node hn
    cases hrp : r.rootPtr with
    | none =>
      rw [rootPtr_eq_none hrp] at hx
      simp only [Tree.addrs] at hx
      have := List.append_inj_right' hx rfl
      simp only [List.cons.injEq, and_true] at this
      subst this
      exact ⟨_, hm, hrp, Or.inl ⟨rfl, rfl⟩⟩
    | some d =>
      simp only [Tree.addrs] at hx
      have hne : r.addrs ≠ [] := by
        intro h0
        have := rootPtr_mem hrp
        rw [h0] at this
        exact absurd this (List.not_mem_nil _)
      obtain ⟨pre', hr'⟩ := last_of_append _ (b' :: r.addrs) _ _ (by simp) hx
      obtain ⟨pre'', hr''⟩ := last_of_append [b'] r.addrs pre' n hne (by simpa using hr')
      have hnmem : n ∈ r.addrs := by rw [hr'']; simp
      have hnb : n ≠ b' := fun h0 => hbr (h0 ▸ hnmem)
      obtain ⟨nd, hnd, hndr, hcase⟩ := ihr (some b') d n pre'' hrp hr hnr hr''
      refine ⟨nd, hnd, hndr, Or.inr ⟨hnb, ?_⟩⟩
      rcases hcase with ⟨hnd', hpar⟩ | ⟨_, hq⟩
      · subst hnd'
        refine ⟨b', _, hpar, hm, hrp, ?_⟩
        intro hl0
        exact hlr n (rootPtr_mem hl0) hnmem
      · exact hq

/-- Climbing from the last node of a tree while the node is a right child
passes the top of the tree and goes on as the climb from the top does. -/
theorem ascendWhileRight_last (m : Mem T) :
    ∀ (tr : Tree T) (parent : Option Nat) (b n : Nat) (pre : List Nat) (K res : Nat),
      tr.rootPtr = some b → tr.Rep m parent → tr.addrs.Nodup → tr.addrs = pre ++ [n] →
      (∀ k, K ≤ k → ascendWhileRight k m b = .ok res) →
      ∀ fuel, K + tr.height ≤ fuel + 1 → ascendWhileRight fuel m n = .ok res := by
  intro tr
  induction tr with
  | nil => intro _ _ _ _ _ _ h; simp [Tree.rootPtr] at h
  | node l b' v c r _ ihr =>
    intro parent b n pre K res hb h hn hx hK fuel hf
    simp only [Tree.rootPtr, Option.some.injEq] at hb
    subst hb
    obtain ⟨hm, _, hr⟩ := h
    obtain ⟨_, hnr, _, hbr, hlr⟩ := nodup_node hn
    simp only [Tree.height] at hf
    cases hrp : r.rootPtr with
    | none =>
      rw [rootPtr_eq_none hrp] at hx
      simp only [Tree.addrs] at hx
      have := List.append_inj_right' hx rfl
      simp only [List.cons.injEq, and_true] at this
      subst this
      exact hK fuel (by omega)
    | some d =>
      simp only [Tree.addrs] at hx
      have hne : r.addrs ≠ [] := by
        intro h0
        have := rootPtr_mem hrp
        rw [h0] at this
        exact absurd this (List.not_mem_nil _)
      obtain ⟨pre', hr'⟩ := last_of_append _ (b' :: r.addrs) _ _ (by simp) hx
      obtain ⟨pre'', hr''⟩ := last_of_append [b'] r.addrs pre' n hne (by simpa using hr')
      have hrh : r.height ≤ max l.height r.height := le_max_right _ _
      refine ihr (some b') d n pre'' (K + 1) res hrp hr hnr hr'' ?_ fuel (by omega)
      intro k hk
      obtain ⟨k', rfl⟩ : ∃ k', k = k' + 1 := ⟨k - 1, by omega⟩
      cases r with
      | nil => simp [Tree.rootPtr] at hrp
      | node rl d' vd cd rr =>
        simp only [Tree.rootPtr, Option.some.injEq] at hrp
        subst hrp
        obtain ⟨hmd, _, _⟩ := hr
        simp only [ascendWhileRight, getParent_of hmd, bind, Except.bind]
        rw [isRightChild_of hmd rfl hm]
        simp only [Tree.rootPtr, decide_True, if_true]
        exact hK k' (by omega)

/-! ### `operator++` on a tree the store holds -/

/-- From the last node of a subtree, `++` lands on the node above the subtree
when the subtree hangs to the left of it, and on `end()` when the subtree is the
whole tree and the last node is not the root. -/
theorem increment_last (m : Mem T) (tr : Tree T) (parent : Option Nat) (b n : Nat)
    (pre : List Nat) (fuel : Nat)
    (hb : tr.rootPtr = some b) (h : tr.Rep m parent) (hn : tr.addrs.Nodup)
    (hx : tr.addrs = pre ++ [n]) (hf : tr.height ≤ fuel)
    (hstop : match parent with
      | none => n ≠ b
      | some p => ∃ pd, m p = some pd ∧ pd.pLeft = some b ∧ pd.pRight ≠ some b) :
    iterator.increment fuel m ⟨some n⟩ = .ok ⟨parent⟩ := by
  obtain ⟨nd, hnd, hndr, hcase⟩ := last_facts m tr parent b n pre hb h hn hx
  have hmb : ∃ bd, m b = some bd ∧ bd.pParent = parent := by
    cases tr with
    | nil => simp [Tree.rootPtr] at hb
    | node l b' v c r =>
      simp only [Tree.rootPtr, Option.some.injEq] at hb
      subst hb
      exact ⟨_, h.1, rfl⟩
  obtain ⟨bd, hbd, hbp⟩ := hmb
  simp only [iterator.increment, getRight_of hnd, hndr, getParent_of hnd, bind, Except.bind]
  rcases hcase with ⟨rfl, hpar⟩ | ⟨hnb, q, qd, hq, hqd, hqr, hql⟩
  · cases parent with
    | none => exact absurd rfl hstop
    | some p =>
      obtain ⟨pd, hpd, hpl, _⟩ := hstop
      rw [hpar, isLeftChild_of hnd hpar hpd]
      simp [hpl, pure, Except.pure]
  · rw [hq, isLeftChild_of hnd hq hqd, isRightChild_of hnd hq hqd]
    have hclimb : ascendWhileRight fuel m n = .ok b := by
      refine ascendWhileRight_last m tr parent b n pre 1 b hb h hn hx ?_ fuel (by omega)
      intro k hk
      obtain ⟨k', rfl⟩ : ∃ k', k = k' + 1 := ⟨k - 1, by omega⟩
      simp only [ascendWhileRight, getParent_of hbd, hbp, bind, Except.bind]
      cases parent with
      | none => rfl
      | some p =>
        obtain ⟨pd, hpd, _, hpr⟩ := hstop
        simp [isRightChild_of hbd hbp hpd, hpr, pure, Except.pure]
    simp [hql, hqr, hclimb, getParent_of hbd, hbp, pure, Except.pure]

/-- On a tree the store holds, `++` moves from a node to the node that follows
it in order. -/
theorem increment_adjacent (m : Mem T) :
    ∀ (tr : Tree T) (parent : Option Nat), tr.Rep m parent → tr.addrs.Nodup →
      ∀ (pre : List Nat) (n s : Nat) (post : List Nat), tr.addrs = pre ++ n :: s :: post →
      ∀ fuel, tr.height ≤ fuel → iterator.increment fuel m ⟨some n⟩ = .ok ⟨some s⟩ := by
  intro tr
  induction tr with
  | nil =>
    intro _ _ _ pre n s post hx
    simp [Tree.addrs] at hx
  | node l b v c r ihl ihr =>
    intro parent h hn pre n s post hx fuel hf
    obtain ⟨hm, hl, hr⟩ := h
    obtain ⟨hnl, hnr, hbl, hbr, hlr⟩ := nodup_node hn
    simp only [Tree.height] at hf
    have hlf : l.height ≤ fuel := by have := le_max_left l.height r.height; omega
    have hrf : r.height ≤ fuel := by have := le_max_right l.height r.height; omega
    -- the step from the top node into its right subtree
    have top : ∀ post', r.addrs = s :: post' →
        iterator.increment fuel m ⟨some b⟩ = .ok ⟨some s⟩ := by
      intro post' hr'
      obtain ⟨d, hd⟩ := @exists_rootPtr_of_addrs_ne_nil T r (by rw [hr']; simp)
      simp only [iterator.increment, getRight_of hm, hd, bind, Except.bind]
      rw [descendLeft_head m r (some b) fuel d s post' hd hr hrf hr']
      rfl
    simp only [Tree.addrs] at hx
    rw [List.append_eq_append_iff] at hx
    rcases hx with ⟨a', _, ha'⟩ | ⟨c', hc1, hc2⟩
    · cases a' with
      | nil =>
        simp only [List.nil_append, List.cons.injEq] at ha'
        obtain ⟨rfl, hr'⟩ := ha'
        exact top post hr'
      | cons y a'' =>
        simp only [List.cons_append, List.cons.injEq] at ha'
        exact ihr (some b) hr hnr a'' n s post ha'.2 fuel hrf
    · cases c' with
      | nil =>
        simp only [List.nil_append, List.cons.injEq] at hc2
        obtain ⟨rfl, hr'⟩ := hc2
        exact top post hr'.symm
      | cons y c'' =>
        simp only [List.cons_append, List.cons.injEq] at hc2
        obtain ⟨rfl, hc2⟩ := hc2
        cases c'' with
        | nil =>
          simp only [List.nil_append, List.cons.injEq] at hc2
          obtain ⟨rfl, _⟩ := hc2
          obtain ⟨d, hd⟩ := @exists_rootPtr_of_addrs_ne_nil T l (by rw [hc1]; simp)
          refine increment_last m l (some s) d n pre fuel hd hl hnl hc1 hlf ?_
          refine ⟨_, hm, hd, ?_⟩
          intro hrd
          exact hlr d (rootPtr_mem hd) (rootPtr_mem hrd)
        | cons z c''' =>
          simp only [List.cons_append, List.cons.injEq] at hc2
          obtain ⟨rfl, _⟩ := hc2
          exact ihl (some b) hl hnl pre n s c''' hc1 fuel hlf

/-! ### The loops of `operator--` -/

/-- Going down right from the top of a tree ends at its last node in order. -/
theorem descendRight_last (m : Mem T) :
    ∀ (tr : Tree T) (parent : Option Nat) (fuel a x : Nat) (pre : List Nat),
      tr.rootPtr = some a → tr.Rep m parent → tr.height ≤ fuel → tr.addrs = pre ++ [x] →
      descendRight fuel m a = .ok x := by
  intro tr
  induction tr with
  | nil => intro _ _ _ _ _ h; simp [Tree.rootPtr] at h
  | node l b v c r _ ihr =>
    intro parent fuel a x pre ha h hf hx
    simp only [Tree.rootPtr, Option.some.injEq] at ha
    subst ha
    simp only [Tree.height] at hf
    obtain ⟨g, rfl⟩ : ∃ g, fuel = g + 1 := ⟨fuel - 1, by omega⟩
    obtain ⟨hm, _, hr⟩ := h
    have hrg : r.height ≤ g := by have := le_max_right l.height r.height; omega
    simp only [descendRight, getRight_of hm, bind, Except.bind]
    cases hrp : r.rootPtr with
    | none =>
      rw [rootPtr_eq_none hrp] at hx
      simp only [Tree.addrs] at hx
      have := List.append_inj_right' hx rfl
      simp only [List.cons.injEq, and_true] at this
      simp [pure, Except.pure, this]
    | some d =>
      simp only [Tree.addrs] at hx
      have hne : r.addrs ≠ [] := by
        intro h0
        have := rootPtr_mem hrp
        rw [h0] at this
        exact absurd this (List.not_mem_nil _)
      obtain ⟨pre', hr'⟩ := last_of_append _ (b :: r.addrs) _ _ (by simp) hx
      obtain ⟨pre'', hr''⟩ := last_of_append [b] r.addrs pre' x hne (by simpa using hr')
      exact ihr _ g d x pre'' hrp hr hrg hr''

/-- The first node in order of a tree the store holds: it has no left child,
and it is either the top of the tree or the left child of its parent. -/
theorem first_facts (m : Mem T) :
    ∀ (tr : Tree T) (parent : Option Nat) (b n : Nat) (rest : List Nat),
      tr.rootPtr = some b → tr.Rep m parent → tr.addrs.Nodup → tr.addrs = n :: rest →
      ∃ nd, m n = some nd ∧ nd.pLeft = none ∧
        ((n = b ∧ nd.pParent = parent) ∨
         (n ≠ b ∧ ∃ q qd, nd.pParent = some q ∧ m q = some qd ∧ qd.pLeft = some n ∧
            qd.pRight ≠ some n)) := by
  intro tr
  induction tr with
  | nil => intro _ _ _ _ h; simp [Tree.rootPtr] at h
  | node l b' v c r ihl _ =>
    intro parent b n rest hb h hn hx
    simp only [Tree.rootPtr, Option.some.injEq] at hb
    subst hb
    obtain ⟨hm, hl, _⟩ := h
    obtain ⟨hnl, _, hbl, _, hlr⟩ := nodup_node hn
    cases hlp : l.rootPtr with
    | none =>
      rw [rootPtr_eq_none hlp] at hx
      simp only [Tree.addrs, List.nil_append, List.cons.injEq] at hx
      obtain ⟨rfl, _⟩ := hx
      exact ⟨_, hm, hlp, Or.inl ⟨rfl, rfl⟩⟩
    | some d =>
      simp only [Tree.addrs] at hx
      have hne : l.addrs ≠ [] := by
        intro h0
        have := rootPtr_mem hlp
        rw [h0] at this
        exact absurd this (List.not_mem_nil _)
      obtain ⟨rest', hr'⟩ := head_of_append _ _ _ _ hne hx
      have hnmem : n ∈ l.addrs := by rw [hr']; simp
      have hnb : n ≠ b' := fun h0 => hbl (h0 ▸ hnmem)
      obtain ⟨nd, hnd, hndl, hcase⟩ := ihl (some b') d n rest' hlp hl hnl hr'
      refine ⟨nd, hnd, hndl, Or.inr ⟨hnb, ?_⟩⟩
      rcases hcase with ⟨hnd', hpar⟩ | ⟨_, hq⟩
      · subst hnd'
        refine ⟨b', _, hpar, hm, hlp, ?_⟩
        intro hr0
        exact hlr n hnmem (rootPtr_mem hr0)
      · exact hq

/-- Climbing from the first node of a tree while the node is a left child
passes the top of the tree and goes on as the climb from the top does. -/
theorem ascendWhileLeft_first (m : Mem T) :
    ∀ (tr : Tree T) (parent : Option Nat) (b n : Nat) (rest : List Nat) (K res : Nat),
      tr.rootPtr = some b → tr.Rep m parent → tr.addrs.Nodup → tr.addrs = n :: rest →
      (∀ k, K ≤ k → ascendWhileLeft k m b = .ok res) →
      ∀ fuel, K + tr.height ≤ fuel + 1 → ascendWhileLeft fuel m n = .ok res := by
  intro tr
  induction tr with
  | nil => intro _ _ _ _ _ _ h; simp [Tree.rootPtr] at h
  | node l b' v c r ihl _ =>
    intro parent b n rest K res hb h hn hx hK fuel hf
    simp only [Tree.rootPtr, Option.some.injEq] at hb
    subst hb
    obtain ⟨hm, hl, _⟩ := h
    obtain ⟨hnl, _, _, _, _⟩ := nodup_node hn
    simp only [Tree.height] at hf
    cases hlp : l.rootPtr with
    | none =>
      rw [rootPtr_eq_none hlp] at hx
      simp only [Tree.addrs, List.nil_append, List.cons.injEq] at hx
      obtain ⟨rfl, _⟩ := hx
      exact hK fuel (by omega)
    | some d =>
      simp only [Tree.addrs] at hx
      have hne : l.addrs ≠ [] := by
        intro h0
        have := rootPtr_mem hlp
        rw [h0] at this
        exact absurd this (List.not_mem_nil _)
      obtain ⟨rest', hr'⟩ := head_of_append _ _ _ _ hne hx
      have hlh : l.height ≤ max l.height r.height := le_max_left _ _
      refine ihl (some b') d n rest' (K + 1) res hlp hl hnl hr' ?_ fuel (by omega)
      intro k hk
      obtain ⟨k', rfl⟩ : ∃ k', k = k' + 1 := ⟨k - 1, by omega⟩
      cases l with
      | nil => simp [Tree.rootPtr] at hlp
      | node ll d' vd cd lr =>
        simp only [Tree.rootPtr, Option.some.injEq] at hlp
        subst hlp
        obtain ⟨hmd, _, _⟩ := hl
        simp only [ascendWhileLeft, getParent_of hmd, bind, Except.bind]
        rw [isLeftChild_of hmd rfl hm]
        simp only [Tree.rootPtr, decide_True, if_true]
        exact hK k' (by omega)

/-! ### `operator--` on a tree the store holds -/

/-- From the first node of a subtree, `--` lands on the node above the subtree
when the subtree hangs to the right of it, and on `end()` when the subtree is
the whole tree and the first node is not the root. -/
theorem decrement_first (m : Mem T) (tr : Tree T) (parent : Option Nat) (b n : Nat)
    (rest : List Nat) (fuel : Nat)
    (hb : tr.rootPtr = some b) (h : tr.Rep m parent) (hn : tr.addrs.Nodup)
    (hx : tr.addrs = n :: rest) (hf : tr.height ≤ fuel)
    (hstop : match parent with
      | none => n ≠ b
      | some p => ∃ pd, m p = some pd ∧ pd.pRight = some b ∧ pd.pLeft ≠ some b) :
    iterator.decrement fuel m ⟨some n⟩ = .ok ⟨parent⟩ := by
  obtain ⟨nd, hnd, hndl, hcase⟩ := first_facts m tr parent b n rest hb h hn hx
  have hmb : ∃ bd, m b = some bd ∧ bd.pParent = parent := by
    cases tr with
    | nil => simp [Tree.rootPtr] at hb
    | node l b' v c r =>
      simp only [Tree.rootPtr, Option.some.injEq] at hb
      subst hb
      exact ⟨_, h.1, rfl⟩
  obtain ⟨bd, hbd, hbp⟩ := hmb
  simp only [iterator.decrement, getLeft_of hnd, hndl, getParent_of hnd, bind, Except.bind]
  rcases hcase with ⟨rfl, hpar⟩ | ⟨hnb, q, qd, hq, hqd, hql, hqr⟩
  · cases parent with
    | none => exact absurd rfl hstop
    | some p =>
      obtain ⟨pd, hpd, hpr, _⟩ := hstop
      rw [hpar, isRightChild_of hnd hpar hpd]
      simp [hpr, pure, Except.pure]
  · rw [hq, isRightChild_of hnd hq hqd, isLeftChild_of hnd hq hqd]
    have hclimb : ascendWhileLeft fuel m n = .ok b := by
      refine ascendWhileLeft_first m tr parent b n rest 1 b hb h hn hx ?_ fuel (by omega)
      intro k hk
      obtain ⟨k', rfl⟩ : ∃ k', k = k' + 1 := ⟨k - 1, by omega⟩
      simp only [ascendWhileLeft, getParent_of hbd, hbp, bind, Except.bind]
      cases parent with
      | none => rfl
      | some p =>
        obtain ⟨pd, hpd, _, hpl⟩ := hstop
        simp [isLeftChild_of hbd hbp hpd, hpl, pure, Except.pure]
    simp [hql, hqr, hclimb, getParent_of hbd, hbp, pure, Except.pure]

/-- On a tree the store holds, `--` moves from a node to the node that precedes
it in order. -/
theorem decrement_adjacent (m : Mem T) :
    ∀ (tr : Tree T) (parent : Option Nat), tr.Rep m parent → tr.addrs.Nodup →
      ∀ (pre : List Nat) (p n : Nat) (post : List Nat), tr.addrs = pre ++ p :: n :: post →
      ∀ fuel, tr.height ≤ fuel → iterator.decrement fuel m ⟨some n⟩ = .ok ⟨some p⟩ := by
  intro tr
  induction tr with
  | nil =>
    intro _ _ _ pre p n post hx
    simp [Tree.addrs] at hx
  | node l b v c r ihl ihr =>
    intro parent h hn pre p n post hx fuel hf
    obtain ⟨hm, hl, hr⟩ := h
    obtain ⟨hnl, hnr, hbl, hbr, hlr⟩ := nodup_node hn
    simp only [Tree.height] at hf
    have hlf : l.height ≤ fuel := by have := le_max_left l.height r.height; omega
    have hrf : r.height ≤ fuel := by have := le_max_right l.height r.height; omega
    -- the step from the top node into its left subtree
    have top : ∀ pre', l.addrs = pre' ++ [p] →
        iterator.decrement fuel m ⟨some b⟩ = .ok ⟨some p⟩ := by
      intro pre' hl'
      obtain ⟨d, hd⟩ := @exists_rootPtr_of_addrs_ne_nil T l (by rw [hl']; simp)
      simp only [iterator.decrement, getLeft_of hm, hd, bind, Except.bind]
      rw [descendRight_last m l (some b) fuel d p pre' hd hl hlf hl']
      rfl
    simp only [Tree.addrs] at hx
    rw [List.append_eq_append_iff] at hx
    rcases hx with ⟨a', _, ha'⟩ | ⟨c', hc1, hc2⟩
    · cases a' with
      | nil =>
        -- `p` is the top node and `n` the first node of the right subtree
        simp only [List.nil_append, List.cons.injEq] at ha'
        obtain ⟨rfl, hr'⟩ := ha'
        obtain ⟨d, hd⟩ := @exists_rootPtr_of_addrs_ne_nil T r (by rw [hr']; simp)
        refine decrement_first m r (some b) d n post fuel hd hr hnr hr' hrf ?_
        refine ⟨_, hm, hd, ?_⟩
        intro hld
        exact hlr d (rootPtr_mem hld) (rootPtr_mem hd)
      | cons y a'' =>
        simp only [List.cons_append, List.cons.injEq] at ha'
        exact ihr (some b) hr hnr a'' p n post ha'.2 fuel hrf
    · cases c' with
      | nil =>
        simp only [List.nil_append, List.cons.injEq] at hc2
        obtain ⟨rfl, hr'⟩ := hc2
        obtain ⟨d, hd⟩ := @exists_rootPtr_of_addrs_ne_nil T r (by rw [← hr']; simp)
        refine decrement_first m r (some p) d n post fuel hd hr hnr hr'.symm hrf ?_
        refine ⟨_, hm, hd, ?_⟩
        intro hld
        exact hlr d (rootPtr_mem hld) (rootPtr_mem hd)
      | cons y c'' =>
        simp only [List.cons_append, List.cons.injEq] at hc2
        obtain ⟨rfl, hc2⟩ := hc2
        cases c'' with
        | nil =>
          simp only [List.nil_append, List.cons.injEq] at hc2
          obtain ⟨rfl, _⟩ := hc2
          exact top pre hc1
        | cons z c''' =>
          simp only [List.cons_append, List.cons.injEq] at hc2
          obtain ⟨rfl, _⟩ := hc2
          exact ihl (some b) hl hnl pre p n c''' hc1 fuel hlf

/-! ### `clear` on a tree the store holds -/

theorem clearNode_none (fuel : Nat) (m : Mem T) : clearNode fuel m none = .ok m := by
  cases fuel <;> rfl

theorem clear_left_slot (m1 : Mem T) (a : Nat) (nd : BNode T) (h : m1 a = some nd)
    (p : Option Nat) :
    ∃ (m2 : Mem T) (nd2 : BNode T), (match p with
        | none => (pure m1 : Except Fault (Mem T))
        | some _ => m1.setLeft (some a) none) = .ok m2 ∧
      m2 a = some nd2 ∧ nd2.pRight = nd.pRight ∧ ∀ x, x ≠ a → m2 x = m1 x := by
  cases p with
  | none => exact ⟨m1, nd, rfl, h, rfl, fun _ _ => rfl⟩
  | some q =>
    refine ⟨m1.put a { nd with pLeft := none }, { nd with pLeft := none }, ?_, ?_, rfl, ?_⟩
    · simp [Mem.setLeft, h]
    · simp [Mem.put]
    · intro x hx
      simp [Mem.put, hx]

theorem clear_right_slot (m1 : Mem T) (a : Nat) (nd : BNode T) (h : m1 a = some nd)
    (p : Option Nat) :
    ∃ (m2 : Mem T) (nd2 : BNode T), (match p with
        | none => (pure m1 : Except Fault (Mem T))
        | some _ => m1.setRight (some a) none) = .ok m2 ∧
      m2 a = some nd2 ∧ ∀ x, x ≠ a → m2 x = m1 x := by
  cases p with
  | none => exact ⟨m1, nd, rfl, h, fun _ _ => rfl⟩
  | some q =>
    refine ⟨m1.put a { nd with pRight := none }, { nd with pRight := none }, ?_, ?_, ?_⟩
    · simp [Mem.setRight, h]
    · simp [Mem.put]
    · intro x hx
      simp [Mem.put, hx]

/-- On a tree the store holds, the recursive `clear` returns, deletes every node
of the tree and touches no other address. -/
theorem clearNode_tree :
    ∀ (tr : Tree T) (m : Mem T) (parent : Option Nat) (fuel : Nat),
      tr.Rep m parent → tr.addrs.Nodup → tr.height ≤ fuel →
      ∃ m', clearNode fuel m tr.rootPtr = .ok m' ∧ (∀ x ∈ tr.addrs, m' x = none) ∧
        ∀ x, x ∉ tr.addrs → m' x = m x := by
  intro tr
  induction tr with
  | nil =>
    intro m parent fuel _ _ _
    exact ⟨m, clearNode_none fuel m, fun x hx => absurd hx (List.not_mem_nil _), fun _ _ => rfl⟩
  | node l a v c r ihl ihr =>
    intro m parent fuel h hn hf
    obtain ⟨hm, hl, hr⟩ := h
    obtain ⟨hnl, hnr, hal, har, hlr⟩ := nodup_node hn
    simp only [Tree.height] at hf
    obtain ⟨g, rfl⟩ : ∃ g, fuel = g + 1 := ⟨fuel - 1, by omega⟩
    have hlg : l.height ≤ g := by have := le_max_left l.height r.height; omega
    have hrg : r.height ≤ g := by have := le_max_right l.height r.height; omega
    obtain ⟨m1, e1, z1, f1⟩ := ihl m (some a) g hl hnl hlg
    have hm1 : m1 a = _ := (f1 a hal).trans hm
    obtain ⟨m2, nd2, e2, hm2, hr2, f2⟩ := clear_left_slot m1 a _ hm1 l.rootPtr
    have hr2' : r.Rep m2 (some a) := by
      refine Rep_congr r _ (fun x hx => ?_) hr
      have hxa : x ≠ a := fun h0 => har (h0 ▸ hx)
      have hxl : x ∉ l.addrs := fun h0 => hlr x h0 hx
      rw [f2 x hxa, f1 x hxl]
    obtain ⟨m3, e3, z3, f3⟩ := ihr m2 (some a) g hr2' hnr hrg
    have hm3 : m3 a = some nd2 := (f3 a har).trans hm2
    obtain ⟨m4, nd4, e4, hm4, f4⟩ := clear_right_slot m3 a nd2 hm3 r.rootPtr
    refine ⟨fun b => if b = a then none else m4 b, ?_, ?_, ?_⟩
    · show clearNode (g + 1) m (some a) = _
      simp only [clearNode, getLeft_of hm, bind, Except.bind, e1, e2,
        getRight_of hm2, hr2, e3, e4, Mem.free, hm4]
    · intro x hx
      simp only [Tree.addrs, List.mem_append, List.mem_cons] at hx
      by_cases hxa : x = a
      · simp [hxa]
      · simp only [hxa, if_false]
        rcases hx with hx | hx | hx
        · rw [f4 x hxa, f3 x (hlr x hx), f2 x hxa, z1 x hx]
        · exact absurd hx hxa
        · rw [f4 x hxa, z3 x hx]
    · intro x hx
      simp only [Tree.addrs, List.mem_append, List.mem_cons, not_or] at hx
      obtain ⟨hxl, hxa, hxr⟩ := hx
      simp only [hxa, if_false]
      rw [f4 x hxa, f3 x hxr, f2 x hxa, f1 x hxl]

/-! ### Taking a node with at most one child out of a tree -/

theorem entries_map_fst : ∀ tr : Tree T, tr.entries.map Prod.fst = tr.addrs := by
  intro tr
  induction tr with
  | nil => rfl
  | node l a v c r ihl ihr => simp [Tree.entries, Tree.addrs, ihl, ihr]

theorem entries_map_snd : ∀ tr : Tree T, tr.entries.map Prod.snd = tr.values := by
  intro tr
  induction tr with
  | nil => rfl
  | node l a v c r ihl ihr => simp [Tree.entries, Tree.values, ihl, ihr]

theorem splice_not_mem : ∀ (tr : Tree T) (n : Nat), n ∉ tr.addrs → tr.splice n = tr := by
  intro tr
  induction tr with
  | nil => intro _ _; rfl
  | node l a v c r ihl ihr =>
    intro n hn
    simp only [Tree.addrs, List.mem_append, List.mem_cons, not_or] at hn
    obtain ⟨h1, h2, h3⟩ := hn
    have : ¬ a = n := fun h => h2 h.symm
    simp [Tree.splice, this, ihl n h1, ihr n h3]

/-- The subtree below a removed node, as the store holds it after the removal:
its top node has the removed node's parent as `pParent`, the rest is unchanged. -/
theorem child_rep {m m' : Mem T} {n p : Nat} {c : Option Nat}
    (P3 : ∀ cc cd, c = some cc → m cc = some cd → m' cc = some { cd with pParent := some p })
    (P4 : ∀ x, x ≠ n → x ≠ p → c ≠ some x → m' x = m x)
    (s : Tree T) (hs : s.Rep m (some n)) (hsn : s.addrs.Nodup) (hc : c = s.rootPtr)
    (hnot : ∀ x ∈ s.addrs, x ≠ n ∧ x ≠ p) : s.Rep m' (some p) := by
  cases s with
  | nil => trivial
  | node sl cc vc cl sr =>
    obtain ⟨hm, hl, hr⟩ := hs
    obtain ⟨_, _, hal, har, _⟩ := nodup_node hsn
    simp only [Tree.rootPtr] at hc
    refine ⟨?_, ?_, ?_⟩
    · rw [P3 cc _ hc hm]
    · refine Rep_congr sl _ (fun x hx => ?_) hl
      have hx' := hnot x (by simp [Tree.addrs, hx])
      refine P4 x hx'.1 hx'.2 ?_
      rw [hc]
      intro h0
      simp only [Option.some.injEq] at h0
      exact hal (h0 ▸ hx)
    · refine Rep_congr sr _ (fun x hx => ?_) hr
      have hx' := hnot x (by simp [Tree.addrs, hx])
      refine P4 x hx'.1 hx'.2 ?_
      rw [hc]
      intro h0
      simp only [Option.some.injEq] at h0
      exact har (h0 ▸ hx)

/-- The removed node itself, seen from the node above it: what takes its place
is its one child subtree, re-hung under the node above. -/
theorem splice_at {m m' : Mem T} {n p : Nat} {nd : BNode T} {c : Option Nat}
    (hnd : m n = some nd)
    (hc : (nd.pLeft = none ∧ c = nd.pRight) ∨ (nd.pRight = none ∧ c = nd.pLeft))
    (P3 : ∀ cc cd, c = some cc → m cc = some cd → m' cc = some { cd with pParent := some p })
    (P4 : ∀ x, x ≠ n → x ≠ p → c ≠ some x → m' x = m x)
    (sl sr : Tree T) (vn : T) (cn : Bool) (parent : Option Nat)
    (hs : (Tree.node sl n vn cn sr).Rep m parent)
    (hsn : (Tree.node sl n vn cn sr).addrs.Nodup)
    (hp : p ∉ (Tree.node sl n vn cn sr).addrs) :
    ((Tree.node sl n vn cn sr).splice n).Rep m' (some p) ∧
      ((Tree.node sl n vn cn sr).splice n).rootPtr = c ∧
      (∀ x, c = some x → x ∈ (Tree.node sl n vn cn sr).addrs) ∧
      ∃ pre post, (Tree.node sl n vn cn sr).entries = pre ++ (n, vn) :: post ∧
        ((Tree.node sl n vn cn sr).splice n).entries = pre ++ post := by
  obtain ⟨hm, hl, hr⟩ := hs
  obtain ⟨hnl, hnr, hal, har, _⟩ := nodup_node hsn
  rw [hnd] at hm
  simp only [Option.some.injEq] at hm
  subst hm
  simp only [Tree.addrs, List.mem_append, List.mem_cons, not_or] at hp
  rcases hc with ⟨h1, h2⟩ | ⟨h1, h2⟩
  · simp only at h1 h2
    have hsl := rootPtr_eq_none h1
    subst hsl
    have hsp : (Tree.node Tree.nil n vn cn sr).splice n = sr := by simp [Tree.splice]
    rw [hsp]
    refine ⟨?_, h2.symm, ?_, [], sr.entries, by simp [Tree.entries], by simp⟩
    · refine child_rep P3 P4 sr hr hnr h2 (fun x hx => ⟨?_, ?_⟩)
      · exact fun h0 => har (h0 ▸ hx)
      · exact fun h0 => hp.2.2 (h0 ▸ hx)
    · intro x hx
      rw [h2] at hx
      simp [Tree.addrs, rootPtr_mem hx]
  · simp only at h1 h2
    have hsr := rootPtr_eq_none h1
    subst hsr
    have hsp : (Tree.node sl n vn cn Tree.nil).splice n = sl := by
      cases sl <;> simp [Tree.splice]
    rw [hsp]
    refine ⟨?_, h2.symm, ?_, sl.entries, [], by simp [Tree.entries], by simp⟩
    · refine child_rep P3 P4 sl hl hnl h2 (fun x hx => ⟨?_, ?_⟩)
      · exact fun h0 => hal (h0 ▸ hx)
      · exact fun h0 => hp.1 (h0 ▸ hx)
    · intro x hx
      rw [h2] at hx
      simp [Tree.addrs, rootPtr_mem hx]

/-- The store after the removal of a node with at most one child holds the
tree without that node: the node above it points to the child instead, the child
points back to the node above, and nothing else has changed. -/
theorem splice_rep {m m' : Mem T} {n p : Nat} {nd pd : BNode T} {c : Option Nat}
    (hnd : m n = some nd) (hp : nd.pParent = some p) (hpd : m p = some pd)
    (hc : (nd.pLeft = none ∧ c = nd.pRight) ∨ (nd.pRight = none ∧ c = nd.pLeft))
    (P2 : m' p = some (if pd.pLeft = some n then { pd with pLeft := c }
      else { pd with pRight := c }))
    (P3 : ∀ cc cd, c = some cc → m cc = some cd → m' cc = some { cd with pParent := some p })
    (P4 : ∀ x, x ≠ n → x ≠ p → c ≠ some x → m' x = m x) :
    ∀ (tr : Tree T) (parent : Option Nat), tr.Rep m parent → tr.addrs.Nodup → n ∈ tr.addrs →
      tr.rootPtr ≠ some n →
      (tr.splice n).Rep m' parent ∧ (tr.splice n).rootPtr = tr.rootPtr ∧ p ∈ tr.addrs ∧
        (∀ x, c = some x → x ∈ tr.addrs) ∧
        ∃ pre post v, tr.entries = pre ++ (n, v) :: post ∧
          (tr.splice n).entries = pre ++ post := by
  intro tr
  induction tr with
  | nil => intro _ _ _ h; simp [Tree.addrs] at h
  | node l a v c0 r ihl ihr =>
    intro parent h hn hmem hroot
    obtain ⟨hm, hl, hr⟩ := h
    obtain ⟨hnl, hnr, hal, har, hlr⟩ := nodup_node hn
    have han : ¬ a = n := fun h0 => hroot (by rw [h0]; rfl)
    have hsp : (Tree.node l a v c0 r).splice n = .node (l.splice n) a v c0 (r.splice n) := by
      simp [Tree.splice, han]
    rw [hsp]
    simp only [Tree.addrs, List.mem_append, List.mem_cons] at hmem
    rcases hmem with hmem | hmem | hmem
    · -- the node is in the left subtree
      have hnr' : n ∉ r.addrs := hlr n hmem
      rw [splice_not_mem r n hnr']
      by_cases hlroot : l.rootPtr = some n
      · cases l with
        | nil => simp [Tree.rootPtr] at hlroot
        | node ll n' vn cn lr =>
          simp only [Tree.rootPtr, Option.some.injEq] at hlroot
          subst hlroot
          have hpa : p = a := by
            have := hl.1
            rw [hnd, Option.some.injEq] at this
            rw [this] at hp
            simpa using hp.symm
          subst hpa
          obtain ⟨s1, s2, s3, pre, post, s4, s5⟩ :=
            splice_at hnd hc P3 P4 ll lr vn cn (some p) hl hnl hal
          rw [hpd, Option.some.injEq] at hm
          subst hm
          refine ⟨⟨?_, s1, ?_⟩, rfl, by simp [Tree.addrs], ?_, pre, post ++ (p, v) :: r.entries,
            vn, ?_, ?_⟩
          · have hroot' : (Tree.node ll n' vn cn lr).rootPtr = some n' := rfl
            rw [P2]
            simp only [hroot', if_true, s2]
          · refine Rep_congr r _ (fun x hx => P4 x ?_ ?_ ?_) hr
            · exact fun h0 => hnr' (h0 ▸ hx)
            · exact fun h0 => har (h0 ▸ hx)
            · exact fun h0 => hlr x (s3 x h0) hx
          · intro x hx
            exact List.mem_append_left _ (s3 x hx)
          · show (Tree.node ll n' vn cn lr).entries ++ (p, v) :: r.entries = _
            rw [s4]
            simp
          · show ((Tree.node ll n' vn cn lr).splice n').entries ++ (p, v) :: r.entries = _
            rw [s5]
            simp
      · obtain ⟨i1, i2, i3, i4, pre, post, v', i5, i6⟩ := ihl (some a) hl hnl hmem hlroot
        have hpa : p ≠ a := fun h0 => hal (h0 ▸ i3)
        have hma : m' a = m a := by
          refine P4 a han (Ne.symm hpa) ?_
          exact fun h0 => hal (i4 a h0)
        refine ⟨⟨?_, i1, ?_⟩, rfl, by simp [Tree.addrs, i3], ?_, pre,
          post ++ (a, v) :: r.entries, v', ?_, ?_⟩
        · rw [hma, hm, i2]
        · refine Rep_congr r _ (fun x hx => P4 x ?_ ?_ ?_) hr
          · exact fun h0 => hnr' (h0 ▸ hx)
          · exact fun h0 => hlr p i3 (h0 ▸ hx)
          · exact fun h0 => hlr x (i4 x h0) hx
        · intro x hx
          simp [Tree.addrs, i4 x hx]
        · simp [Tree.entries, i5]
        · simp [Tree.entries, i6]
    · exact absurd hmem.symm han
    · -- the node is in the right subtree
      have hnl' : n ∉ l.addrs := fun h0 => hlr n h0 hmem
      rw [splice_not_mem l n hnl']
      by_cases hrroot : r.rootPtr = some n
      · cases r with
        | nil => simp [Tree.rootPtr] at hrroot
        | node rl n' vn cn rr =>
          simp only [Tree.rootPtr, Option.some.injEq] at hrroot
          subst hrroot
          have hpa : p = a := by
            have := hr.1
            rw [hnd, Option.some.injEq] at this
            rw [this] at hp
            simpa using hp.symm
          subst hpa
          obtain ⟨s1, s2, s3, pre, post, s4, s5⟩ :=
            splice_at hnd hc P3 P4 rl rr vn cn (some p) hr hnr har
          rw [hpd, Option.some.injEq] at hm
          subst hm
          have hside : ¬ l.rootPtr = some n' := fun h0 => hnl' (rootPtr_mem h0)
          refine ⟨⟨?_, ?_, s1⟩, rfl, by simp [Tree.addrs], ?_, l.entries ++ (p, v) :: pre, post,
            vn, ?_, ?_⟩
          · rw [P2]
            simp only [hside, if_false, s2]
          · refine Rep_congr l _ (fun x hx => P4 x ?_ ?_ ?_) hl
            · exact fun h0 => hnl' (h0 ▸ hx)
            · exact fun h0 => hal (h0 ▸ hx)
            · exact fun h0 => hlr x hx (s3 x h0)
          · intro x hx
            exact List.mem_append_right _ (List.mem_cons_of_mem _ (s3 x hx))
          · show l.entries ++ (p, v) :: (Tree.node rl n' vn cn rr).entries = _
            rw [s4]
            simp
          · show l.entries ++ (p, v) :: ((Tree.node rl n' vn cn rr).splice n').entries = _
            rw [s5]
            simp
      · obtain ⟨i1, i2, i3, i4, pre, post, v', i5, i6⟩ := ihr (some a) hr hnr hmem hrroot
        have hpa : p ≠ a := fun h0 => har (h0 ▸ i3)
        have hma : m' a = m a := by
          refine P4 a han (Ne.symm hpa) ?_
          exact fun h0 => har (i4 a h0)
        refine ⟨⟨?_, ?_, i1⟩, rfl, by simp [Tree.addrs, i3], ?_, l.entries ++ (a, v) :: pre,
          post, v', ?_, ?_⟩
        · rw [hma, hm, i2]
        · refine Rep_congr l _ (fun x hx => P4 x ?_ ?_ ?_) hl
          · exact fun h0 => hnl' (h0 ▸ hx)
          · exact fun h0 => hlr x hx (h0 ▸ i3)
          · exact fun h0 => hlr x hx (i4 x h0)
        · intro x hx
          simp [Tree.addrs, i4 x hx]
        · simp [Tree.entries, i5]
        · simp [Tree.entries, i6]

/-! ### What `erase` does to the store -/

theorem setLeft_of {m : Mem T} {a : Nat} {nd : BNode T} (h : m a = some nd) (v : Option Nat) :
    m.setLeft (some a) v = .ok (m.put a { nd with pLeft := v }) := by
  simp [Mem.setLeft, h]

theorem setRight_of {m : Mem T} {a : Nat} {nd : BNode T} (h : m a = some nd) (v : Option Nat) :
    m.setRight (some a) v = .ok (m.put a { nd with pRight := v }) := by
  simp [Mem.setRight, h]

theorem setParent_of {m : Mem T} {a : Nat} {nd : BNode T} (h : m a = some nd) (v : Option Nat) :
    m.setParent (some a) v = .ok (m.put a { nd with pParent := v }) := by
  simp [Mem.setParent, h]

theorem free_of {m : Mem T} {a : Nat} {nd : BNode T} (h : m a = some nd) :
    m.free a = .ok (fun b => if b = a then none else m b) := by
  simp [Mem.free, h]

theorem put_same (m : Mem T) (a : Nat) (nd : BNode T) : m.put a nd a = some nd := by
  simp [Mem.put]

theorem put_other (m : Mem T) {a b : Nat} (nd : BNode T) (h : b ≠ a) : m.put a nd b = m b := by
  simp [Mem.put, h]

/-- The store `erase` leaves behind for a node that has a parent and at most
one child `c`: the node is deleted, the parent's slot that held the node holds
`c`, the child's `pParent` is the parent, and nothing else is written. -/
theorem erase_store {m : Mem T} (fuel : Nat) (t : BST) {n p : Nat} {nd pd : BNode T}
    {c : Option Nat} (itR : iterator)
    (hnd : m n = some nd) (hp : nd.pParent = some p) (hpd : m p = some pd) (hpn : p ≠ n)
    (hc : (nd.pLeft = none ∧ c = nd.pRight) ∨ (nd.pRight = none ∧ c = nd.pLeft))
    (hch : ∀ cc, c = some cc → cc ≠ n ∧ cc ≠ p ∧ ∃ cd, m cc = some cd)
    (hinc : iterator.increment fuel m ⟨some n⟩ = .ok itR) :
    ∃ m', erase fuel m t ⟨some n⟩ = .ok (m', t, itR) ∧ m' n = none ∧
      m' p = some (if pd.pLeft = some n then { pd with pLeft := c }
        else { pd with pRight := c }) ∧
      (∀ cc cd, c = some cc → m cc = some cd → m' cc = some { cd with pParent := some p }) ∧
      (∀ x, x ≠ n → x ≠ p → c ≠ some x → m' x = m x) := by
  have hne : ¬ (⟨some n⟩ : iterator) = t.end := by simp [BST.end]
  cases hl : nd.pLeft with
  | none =>
    cases hr : nd.pRight with
    | none =>
      -- Case 1: no children
      have hcn : c = none := by
        rcases hc with ⟨_, h⟩ | ⟨_, h⟩
        · rw [h, hr]
        · rw [h, hl]
      subst hcn
      by_cases hside : pd.pLeft = some n
      · refine ⟨fun b => if b = n then none else (m.put p { pd with pLeft := none }) b,
          ?_, by simp, ?_, ?_, ?_⟩
        · have hm2 : (m.put p { pd with pLeft := none }) n = some nd := by
            rw [put_other m _ (Ne.symm hpn), hnd]
          simp only [erase, hne, if_false, hinc, getLeft_of hnd, getRight_of hnd, hl, hr,
            getParent_of hnd, hp, isLeftChild_of hnd hp hpd, hside, decide_True, if_true,
            setLeft_of hpd, free_of hm2, bind, Except.bind, pure, Except.pure]
        · simp [hside, hpn, put_same]
        · intro cc cd h0; simp at h0
        · intro x hxn hxp _
          simp [hxn, put_other m _ hxp]
      · refine ⟨fun b => if b = n then none else (m.put p { pd with pRight := none }) b,
          ?_, by simp, ?_, ?_, ?_⟩
        · have hm2 : (m.put p { pd with pRight := none }) n = some nd := by
            rw [put_other m _ (Ne.symm hpn), hnd]
          simp only [erase, hne, if_false, hinc, getLeft_of hnd, getRight_of hnd, hl, hr,
            getParent_of hnd, hp, isLeftChild_of hnd hp hpd, hside, decide_False,
            Bool.false_eq_true, setRight_of hpd, free_of hm2, bind, Except.bind, pure,
            Except.pure]
        · simp [hside, hpn, put_same]
        · intro cc cd h0; simp at h0
        · intro x hxn hxp _
          simp [hxn, put_other m _ hxp]
    | some cc =>
      -- Case 2: only a right child
      have hcn : c = some cc := by
        rcases hc with ⟨_, h⟩ | ⟨h, _⟩
        · rw [h, hr]
        · rw [hr] at h; simp at h
      subst hcn
      obtain ⟨hccn, hccp, cd, hcd⟩ := hch cc rfl
      have hm1n : (m.put cc { cd with pParent := some p }) n = some nd := by
        rw [put_other m _ (Ne.symm hccn), hnd]
      have hm1p : (m.put cc { cd with pParent := some p }) p = some pd := by
        rw [put_other m _ (Ne.symm hccp), hpd]
      by_cases hside : pd.pLeft = some n
      · refine ⟨fun b => if b = n then none else
            ((m.put cc { cd with pParent := some p }).put p { pd with pLeft := some cc }) b,
          ?_, by simp, ?_, ?_, ?_⟩
        · have hm2 : ((m.put cc { cd with pParent := some p }).put p
              { pd with pLeft := some cc }) n = some nd := by
            rw [put_other _ _ (Ne.symm hpn), hm1n]
          simp only [erase, hne, if_false, hinc, getLeft_of hnd, getRight_of hnd, hl, hr,
            getParent_of hnd, hp, setParent_of hcd, getParent_of hm1n,
            isLeftChild_of hm1n hp hm1p, getRight_of hm1n, hside, decide_True, if_true,
            setLeft_of hm1p, free_of hm2, bind, Except.bind, pure, Except.pure]
        · simp [hside, hpn, put_same]
        · intro cc' cd' h0 h1
          simp only [Option.some.injEq] at h0
          subst h0
          rw [hcd, Option.some.injEq] at h1
          subst h1
          simp [hccn, put_other _ _ hccp, put_same]
        · intro x hxn hxp hxc
          have hxc' : x ≠ cc := fun h0 => hxc (by rw [h0])
          simp [hxn, put_other _ _ hxp, put_other _ _ hxc']
      · refine ⟨fun b => if b = n then none else
            ((m.put cc { cd with pParent := some p }).put p { pd with pRight := some cc }) b,
          ?_, by simp, ?_, ?_, ?_⟩
        · have hm2 : ((m.put cc { cd with pParent := some p }).put p
              { pd with pRight := some cc }) n = some nd := by
            rw [put_other _ _ (Ne.symm hpn), hm1n]
          simp only [erase, hne, if_false, hinc, getLeft_of hnd, getRight_of hnd, hl, hr,
            getParent_of hnd, hp, setParent_of hcd, getParent_of hm1n,
            isLeftChild_of hm1n hp hm1p, getRight_of hm1n, hside, decide_False,
            Bool.false_eq_true, setRight_of hm1p, free_of hm2, bind, Except.bind, pure,
            Except.pure]
        · simp [hside, hpn, put_same]
        · intro cc' cd' h0 h1
          simp only [Option.some.injEq] at h0
          subst h0
          rw [hcd, Option.some.injEq] at h1
          subst h1
          simp [hccn, put_other _ _ hccp, put_same]
        · intro x hxn hxp hxc
          have hxc' : x ≠ cc := fun h0 => hxc (by rw [h0])
          simp [hxn, put_other _ _ hxp, put_other _ _ hxc']
  | some cc =>
    cases hr : nd.pRight with
    | some _ =>
      rcases hc with ⟨h, _⟩ | ⟨h, _⟩
      · rw [hl] at h; simp at h
      · rw [hr] at h; simp at h
    | none =>
      -- Case 2: only a left child
      have hcn : c = some cc := by
        rcases hc with ⟨h, _⟩ | ⟨_, h⟩
        · rw [hl] at h; simp at h
        · rw [h, hl]
      subst hcn
      obtain ⟨hccn, hccp, cd, hcd⟩ := hch cc rfl
      have hm1n : (m.put cc { cd with pParent := some p }) n = some nd := by
        rw [put_other m _ (Ne.symm hccn), hnd]
      have hm1p : (m.put cc { cd with pParent := some p }) p = some pd := by
        rw [put_other m _ (Ne.symm hccp), hpd]
      by_cases hside : pd.pLeft = some n
      · refine ⟨fun b => if b = n then none else
            ((m.put cc { cd with pParent := some p }).put p { pd with pLeft := some cc }) b,
          ?_, by simp, ?_, ?_, ?_⟩
        · have hm2 : ((m.put cc { cd with pParent := some p }).put p
              { pd with pLeft := some cc }) n = some nd := by
            rw [put_other _ _ (Ne.symm hpn), hm1n]
          simp only [erase, hne, if_false, hinc, getLeft_of hnd, getRight_of hnd, hl, hr,
            getParent_of hnd, hp, setParent_of hcd, getParent_of hm1n,
            isLeftChild_of hm1n hp hm1p, getLeft_of hm1n, hside, decide_True, if_true,
            setLeft_of hm1p, free_of hm2, bind, Except.bind, pure, Except.pure]
        · simp [hside, hpn, put_same]
        · intro cc' cd' h0 h1
          simp only [Option.some.injEq] at h0
          subst h0
          rw [hcd, Option.some.injEq] at h1
          subst h1
          simp [hccn, put_other _ _ hccp, put_same]
        · intro x hxn hxp hxc
          have hxc' : x ≠ cc := fun h0 => hxc (by rw [h0])
          simp [hxn, put_other _ _ hxp, put_other _ _ hxc']
      · refine ⟨fun b => if b = n then none else
            ((m.put cc { cd with pParent := some p }).put p { pd with pRight := some cc }) b,
          ?_, by simp, ?_, ?_, ?_⟩
        · have hm2 : ((m.put cc { cd with pParent := some p }).put p
              { pd with pRight := some cc }) n = some nd := by
            rw [put_other _ _ (Ne.symm hpn), hm1n]
          simp only [erase, hne, if_false, hinc, getLeft_of hnd, getRight_of hnd, hl, hr,
            getParent_of hnd, hp, setParent_of hcd, getParent_of hm1n,
            isLeftChild_of hm1n hp hm1p, getLeft_of hm1n, hside, decide_False,
            Bool.false_eq_true, setRight_of hm1p, free_of hm2, bind, Except.bind, pure,
            Except.pure]
        · simp [hside, hpn, put_same]
        · intro cc' cd' h0 h1
          simp only [Option.some.injEq] at h0
          subst h0
          rw [hcd, Option.some.injEq] at h1
          subst h1
          simp [hccn, put_other _ _ hccp, put_same]
        · intro x hxn hxp hxc
          have hxc' : x ≠ cc := fun h0 => hxc (by rw [h0])
          simp [hxn, put_other _ _ hxp, put_other _ _ hxc']

/-! ### Every node of a tree the store holds -/

theorem rep_root_live {m : Mem T} {s : Tree T} {parent : Option Nat} {cc : Nat}
    (hs : s.Rep m parent) (hc : s.rootPtr = some cc) : ∃ cd, m cc = some cd := by
  cases s with
  | nil => simp [Tree.rootPtr] at hc
  | node sl a v c sr =>
    simp only [Tree.rootPtr, Option.some.injEq] at hc
    subst hc
    exact ⟨_, hs.1⟩

/-- The value the store holds at a node is the value the tree lists for it. -/
theorem rep_entry {m : Mem T} :
    ∀ (tr : Tree T) (parent : Option Nat) (a : Nat) (v : T), tr.Rep m parent →
      (a, v) ∈ tr.entries → ∃ nd, m a = some nd ∧ nd.data = v := by
  intro tr
  induction tr with
  | nil => intro _ _ _ _ h; simp [Tree.entries] at h
  | node l b w c r ihl ihr =>
    intro parent a v h hmem
    obtain ⟨hm, hl, hr⟩ := h
    simp only [Tree.entries, List.mem_append, List.mem_cons, Prod.mk.injEq] at hmem
    rcases hmem with hmem | ⟨rfl, rfl⟩ | hmem
    · exact ihl _ a v hl hmem
    · exact ⟨_, hm, rfl⟩
    · exact ihr _ a v hr hmem

/-- A node of a tree the store holds that is not the top of the tree has a live
parent other than itself, and its children are live nodes other than itself and
its parent. -/
theorem node_facts {m : Mem T} {n : Nat} {nd : BNode T} (hnd : m n = some nd) :
    ∀ (tr : Tree T) (parent : Option Nat), tr.Rep m parent → tr.addrs.Nodup → n ∈ tr.addrs →
      tr.rootPtr ≠ some n →
      ∃ p pd, nd.pParent = some p ∧ m p = some pd ∧ p ≠ n ∧
        ∀ cc, nd.pLeft = some cc ∨ nd.pRight = some cc →
          cc ≠ n ∧ cc ≠ p ∧ ∃ cd, m cc = some cd := by
  -- the facts for a subtree `s` whose top is `n`, hanging below the node `a`
  have direct : ∀ (s : Tree T) (a : Nat) (ad : BNode T), m a = some ad → s.Rep m (some a) →
      s.addrs.Nodup → a ∉ s.addrs → s.rootPtr = some n →
      ∃ p pd, nd.pParent = some p ∧ m p = some pd ∧ p ≠ n ∧
        ∀ cc, nd.pLeft = some cc ∨ nd.pRight = some cc →
          cc ≠ n ∧ cc ≠ p ∧ ∃ cd, m cc = some cd := by
    intro s a ad had hs hsn has hsr
    cases s with
    | nil => simp [Tree.rootPtr] at hsr
    | node sl n' vn cn sr =>
      simp only [Tree.rootPtr, Option.some.injEq] at hsr
      subst hsr
      obtain ⟨hm, hl, hr⟩ := hs
      obtain ⟨_, _, hnl, hnr, _⟩ := nodup_node hsn
      rw [hnd, Option.some.injEq] at hm
      subst hm
      simp only [Tree.addrs, List.mem_append, List.mem_cons, not_or] at has
      refine ⟨a, ad, rfl, had, has.2.1, ?_⟩
      intro cc hcc
      rcases hcc with hcc | hcc
      · have hmem := @rootPtr_mem T sl cc hcc
        exact ⟨fun h0 => hnl (h0 ▸ hmem), fun h0 => has.1 (h0 ▸ hmem), rep_root_live hl hcc⟩
      · have hmem := @rootPtr_mem T sr cc hcc
        exact ⟨fun h0 => hnr (h0 ▸ hmem), fun h0 => has.2.2 (h0 ▸ hmem), rep_root_live hr hcc⟩
  intro tr
  induction tr with
  | nil => intro _ _ _ h; simp [Tree.addrs] at h
  | node l a v c0 r ihl ihr =>
    intro parent h hn hmem hroot
    obtain ⟨hm, hl, hr⟩ := h
    obtain ⟨hnl, hnr, hal, har, _⟩ := nodup_node hn
    have han : ¬ a = n := fun h0 => hroot (by rw [h0]; rfl)
    simp only [Tree.addrs, List.mem_append, List.mem_cons] at hmem
    rcases hmem with hmem | hmem | hmem
    · by_cases hlroot : l.rootPtr = some n
      · exact direct l a _ hm hl hnl hal hlroot
      · exact ihl _ hl hnl hmem hlroot
    · exact absurd hmem.symm han
    · by_cases hrroot : r.rootPtr = some n
      · exact direct r a _ hm hr hnr har hrroot
      · exact ihr _ hr hnr hmem hrroot

/-- In a well-formed tree `++` returns normally from every node that is not the
root: with the node that follows it in order, or with `end()` when there is no
such node. -/
theorem increment_nonroot {m : Mem T} (tr : Tree T) (hr : tr.Rep m none)
    (hn : tr.addrs.Nodup) (pre post : List Nat) (n : Nat) (hx : tr.addrs = pre ++ n :: post)
    (hroot : tr.rootPtr ≠ some n) (fuel : Nat) (hf : tr.height ≤ fuel) :
    iterator.increment fuel m ⟨some n⟩ = .ok ⟨post.head?⟩ := by
  cases post with
  | nil =>
    obtain ⟨b, hb⟩ := @exists_rootPtr_of_addrs_ne_nil T tr (by rw [hx]; simp)
    refine increment_last m tr none b n pre fuel hb hr hn hx hf ?_
    intro h0
    exact hroot (h0 ▸ hb)
  | cons s post' => exact increment_adjacent m tr none hr hn pre n s post' hx fuel hf

/-! ### The in-order successor by position -/

theorem leftmost_eq_head : ∀ tr : Tree T, tr.leftmost = tr.addrs.head? := by
  intro tr
  induction tr with
  | nil => rfl
  | node l a v c r ihl _ =>
    simp only [Tree.leftmost, Tree.addrs, ihl]
    cases l.addrs <;> simp

/-- The node that is last in order in a subtree has, as its successor by
position, the successor of the whole subtree. -/
theorem successor_last :
    ∀ (tr : Tree T) (up : Option Nat) (pre : List Nat) (n : Nat), tr.addrs.Nodup →
      tr.addrs = pre ++ [n] → tr.successor up n = up := by
  intro tr
  induction tr with
  | nil => intro _ pre n _ h; simp [Tree.addrs] at h
  | node l a v c r _ ihr =>
    intro up pre n hn hx
    obtain ⟨_, hnr, hal, har, hlr⟩ := nodup_node hn
    simp only [Tree.addrs] at hx
    cases hra : r.addrs with
    | nil =>
      rw [hra] at hx
      have := List.append_inj_right' hx rfl
      simp only [List.cons.injEq, and_true] at this
      subst this
      simp [Tree.successor, leftmost_eq_head, hra]
    | cons y ys =>
      obtain ⟨pre', hr'⟩ := last_of_append _ (a :: r.addrs) _ _ (by simp) hx
      obtain ⟨pre'', hr''⟩ :=
        last_of_append [a] r.addrs pre' n (by rw [hra]; simp) (by simpa using hr')
      have hnmem : n ∈ r.addrs := by rw [hr'']; simp
      have hna : ¬ n = a := fun h0 => har (h0 ▸ hnmem)
      have hnl : n ∉ l.addrs := fun h0 => hlr n h0 hnmem
      simp only [Tree.successor, hna, hnl, if_false]
      exact ihr up pre'' n hnr hr''

/-- The successor by position is the node that follows in order. -/
theorem successor_adjacent :
    ∀ (tr : Tree T) (up : Option Nat) (pre : List Nat) (n s : Nat) (post : List Nat),
      tr.addrs.Nodup → tr.addrs = pre ++ n :: s :: post → tr.successor up n = some s := by
  intro tr
  induction tr with
  | nil => intro _ pre n s post _ h; simp [Tree.addrs] at h
  | node l a v c r ihl ihr =>
    intro up pre n s post hn hx
    obtain ⟨hnl, hnr, hal, har, hlr⟩ := nodup_node hn
    have top : ∀ post', r.addrs = s :: post' →
        (Tree.node l a v c r).successor up a = some s := by
      intro post' hr'
      simp [Tree.successor, leftmost_eq_head, hr']
    have inl : ∀ x, x ∈ l.addrs → ¬ x = a := fun x hx h0 => hal (h0 ▸ hx)
    simp only [Tree.addrs] at hx
    rw [List.append_eq_append_iff] at hx
    rcases hx with ⟨a', _, ha'⟩ | ⟨c', hc1, hc2⟩
    · cases a' with
      | nil =>
        simp only [List.nil_append, List.cons.injEq] at ha'
        obtain ⟨rfl, hr'⟩ := ha'
        exact top post hr'
      | cons y a'' =>
        simp only [List.cons_append, List.cons.injEq] at ha'
        have hnmem : n ∈ r.addrs := by rw [ha'.2]; simp
        have hna : ¬ n = a := fun h0 => har (h0 ▸ hnmem)
        have hnl' : n ∉ l.addrs := fun h0 => hlr n h0 hnmem
        simp only [Tree.successor, hna, hnl', if_false]
        exact ihr up a'' n s post hnr ha'.2
    · cases c' with
      | nil =>
        simp only [List.nil_append, List.cons.injEq] at hc2
        obtain ⟨rfl, hr'⟩ := hc2
        exact top post hr'.symm
      | cons y c'' =>
        simp only [List.cons_append, List.cons.injEq] at hc2
        obtain ⟨rfl, hc2⟩ := hc2
        have hnmem : n ∈ l.addrs := by rw [hc1]; simp
        simp only [Tree.successor, inl n hnmem, hnmem, if_false, if_true]
        cases c'' with
        | nil =>
          simp only [List.nil_append, List.cons.injEq] at hc2
          obtain ⟨rfl, _⟩ := hc2
          exact successor_last l (some s) pre n hnl hc1
        | cons z c''' =>
          simp only [List.cons_append, List.cons.injEq] at hc2
          obtain ⟨rfl, _⟩ := hc2
          exact ihl (some a) pre n s c''' hnl hc1

/-! ### Walking a tree the store holds -/

/-- On a well-formed tree with `size() != 0`, `begin()` is the first node in
order. -/
theorem begin_first {m : Mem T} {t : BST} {tr : Tree T} (hwf : WellFormed m t tr)
    (hne : t.numElements ≠ 0) (first : Nat) (rest : List Nat) (hx : tr.addrs = first :: rest)
    (fuel : Nat) (hf : tr.height ≤ fuel) : begin fuel m t = .ok ⟨some first⟩ := by
  obtain ⟨hrp, hrep, _⟩ := hwf.rep
  obtain ⟨b, hb⟩ := @exists_rootPtr_of_addrs_ne_nil T tr (by rw [hx]; simp)
  have he : t.empty = false := by simpa [empty, size] using hne
  rw [hb] at hrp
  simp only [begin, he, ← hrp, Bool.false_eq_true, if_false, bind, Except.bind,
    descendLeft_head m tr none fuel b first rest hb hrep hf hx]
  rfl

/-- Going forward by `++` from a node to the last node in order visits the
nodes in between in order. -/
theorem forwardUntil_suffix {m : Mem T} (tr : Tree T) (hr : tr.Rep m none)
    (hn : tr.addrs.Nodup) (last fuel : Nat) (hf : tr.height ≤ fuel) :
    ∀ (xs pre : List Nat) (x : Nat), tr.addrs = pre ++ x :: xs →
      (x :: xs).getLast? = some last →
      ∀ steps, xs.length < steps →
        forwardUntil steps fuel m ⟨some x⟩ ⟨some last⟩ =
          .ok ((x :: xs).map (fun a => (⟨some a⟩ : iterator))) := by
  intro xs
  induction xs with
  | nil =>
    intro pre x _ hl steps hs
    obtain ⟨s, rfl⟩ : ∃ s, steps = s + 1 := ⟨steps - 1, by omega⟩
    simp only [List.getLast?_singleton, Option.some.injEq] at hl
    subst hl
    simp [forwardUntil, pure, Except.pure]
  | cons y ys ih =>
    intro pre x hx hl steps hs
    simp only [List.length_cons] at hs
    obtain ⟨s, rfl⟩ : ∃ s, steps = s + 1 := ⟨steps - 1, by omega⟩
    rw [List.getLast?_cons_cons] at hl
    have hlast : last ∈ y :: ys := List.mem_of_getLast?_eq_some hl
    have hxl : x ≠ last := by
      intro h0
      rw [hx] at hn
      have h1 := (List.nodup_append.mp hn).2.1
      rw [List.nodup_cons] at h1
      exact h1.1 (h0 ▸ hlast)
    have hne : ¬ (⟨some x⟩ : iterator) = ⟨some last⟩ := by simpa using hxl
    have hinc := increment_adjacent m tr none hr hn pre x y ys hx fuel hf
    have hrest := ih (pre ++ [x]) y (by simpa using hx) hl s (by omega)
    simp only [forwardUntil, hne, if_false, hinc, hrest, bind, Except.bind]
    rfl

/-- Going backward by `--` from a node to the first node in order visits the
nodes in between in reverse order. -/
theorem backwardUntil_prefix {m : Mem T} (tr : Tree T) (hr : tr.Rep m none)
    (hn : tr.addrs.Nodup) (first fuel : Nat) (hf : tr.height ≤ fuel) :
    ∀ (ys post : List Nat) (x : Nat), tr.addrs = (x :: ys).reverse ++ post →
      (x :: ys).getLast? = some first →
      ∀ steps, ys.length < steps →
        backwardUntil steps fuel m ⟨some x⟩ ⟨some first⟩ =
          .ok ((x :: ys).map (fun a => (⟨some a⟩ : iterator))) := by
  intro ys
  induction ys with
  | nil =>
    intro post x _ hl steps hs
    obtain ⟨s, rfl⟩ : ∃ s, steps = s + 1 := ⟨steps - 1, by omega⟩
    simp only [List.getLast?_singleton, Option.some.injEq] at hl
    subst hl
    simp [backwardUntil, pure, Except.pure]
  | cons y ys ih =>
    intro post x hx hl steps hs
    simp only [List.length_cons] at hs
    obtain ⟨s, rfl⟩ : ∃ s, steps = s + 1 := ⟨steps - 1, by omega⟩
    rw [List.getLast?_cons_cons] at hl
    have hfirst : first ∈ y :: ys := List.mem_of_getLast?_eq_some hl
    have hx' : tr.addrs = ys.reverse ++ y :: x :: post := by simpa using hx
    have hxf : x ≠ first := by
      intro h0
      rw [hx'] at hn
      obtain ⟨_, h1, h2⟩ := List.nodup_append.mp hn
      rw [List.nodup_cons] at h1
      rcases List.mem_cons.mp hfirst with h3 | h3
      · exact h1.1 (by rw [← h3, ← h0]; simp)
      · exact h2 (List.mem_reverse.mpr h3) (by rw [← h0]; simp)
    have hne : ¬ (⟨some x⟩ : iterator) = ⟨some first⟩ := by simpa using hxf
    have hdec := decrement_adjacent m tr none hr hn ys.reverse y x post hx' fuel hf
    have hrest := ih (x :: post) y (by simpa using hx') hl s (by omega)
    simp only [backwardUntil, hne, if_false, hdec, hrest, bind, Except.bind]
    rfl

/-- Applying `--` to `end()` any number of times never reaches a node. -/
theorem backwardUntil_from_end (steps fuel : Nat) (m : Mem T) (a : Nat) :
    backwardUntil steps fuel m ⟨none⟩ ⟨some a⟩ = .error .outOfFuel := by
  induction steps with
  | zero => rfl
  | succ s ih =>
    have hne : ¬ (⟨none⟩ : iterator) = ⟨some a⟩ := by simp
    have hdec : iterator.decrement fuel m ⟨none⟩ = .ok ⟨none⟩ := rfl
    simp only [backwardUntil, hne, if_false, hdec, ih, bind, Except.bind]

/-! ### The example stores are well formed -/

theorem Example.wf1 : WellFormed Example.mem1 Example.bst1 Example.tree1 :=
  ⟨⟨1, rfl⟩, by decide⟩

theorem Example.wf2 : WellFormed Example.mem2 Example.bst2 Example.tree2 :=
  ⟨⟨2, rfl⟩, by decide⟩

theorem Example.wf3 : WellFormed Example.mem3 Example.bst3 Example.tree3 :=
  ⟨⟨2, rfl⟩, by decide⟩

theorem Example.wf4 : WellFormed Example.mem4 Example.bst4 Example.tree4 :=
  ⟨⟨3, rfl⟩, by decide⟩

/-- From a root that has no right child, `++` reads `pLeft` through the null
parent pointer. -/
theorem increment_root_without_right {m : Mem T} {n : Nat} {nd : BNode T} (fuel : Nat)
    (hnd : m n = some nd) (hr : nd.pRight = none) (hp : nd.pParent = none) :
    iterator.increment fuel m ⟨some n⟩ = .error .nullDeref := by
  simp [iterator.increment, getRight_of hnd, hr, getParent_of hnd, hp, BNode.isLeftChild,
    Mem.getLeft, Mem.deref, bind, Except.bind]

/-! ### The in-order predecessor by position -/

theorem rightmost_eq_getLast : ∀ tr : Tree T, tr.rightmost = tr.addrs.getLast? := by
  intro tr
  induction tr with
  | nil => rfl
  | node l a v c r _ ihr =>
    simp only [Tree.rightmost, Tree.addrs, ihr]
    cases hr : r.addrs with
    | nil => simp
    | cons y ys =>
      obtain ⟨z, hz⟩ : ∃ z, (y :: ys).getLast? = some z :=
        ⟨_, List.getLast?_eq_getLast _ (by simp)⟩
      simp [List.getLast?_append, List.getLast?_cons_cons, hz]

/-- The node that is first in order in a subtree has, as its predecessor by
position, the predecessor of the whole subtree. -/
theorem predecessor_first :
    ∀ (tr : Tree T) (up : Option Nat) (n : Nat) (rest : List Nat), tr.addrs.Nodup →
      tr.addrs = n :: rest → tr.predecessor up n = up := by
  intro tr
  induction tr with
  | nil => intro _ n rest _ h; simp [Tree.addrs] at h
  | node l a v c r ihl _ =>
    intro up n rest hn hx
    obtain ⟨hnl, _, hal, _, _⟩ := nodup_node hn
    simp only [Tree.addrs] at hx
    cases hla : l.addrs with
    | nil =>
      rw [hla] at hx
      simp only [List.nil_append, List.cons.injEq] at hx
      obtain ⟨rfl, _⟩ := hx
      simp [Tree.predecessor, rightmost_eq_getLast, hla]
    | cons y ys =>
      obtain ⟨rest', hr'⟩ := head_of_append l.addrs _ _ _ (by rw [hla]; simp) hx
      have hnmem : n ∈ l.addrs := by rw [hr']; simp
      have hna : ¬ n = a := fun h0 => hal (h0 ▸ hnmem)
      simp only [Tree.predecessor, hna, hnmem, if_false, if_true]
      exact ihl up n rest' hnl hr'

/-- The predecessor by position is the node that precedes in order. -/
theorem predecessor_adjacent :
    ∀ (tr : Tree T) (up : Option Nat) (pre : List Nat) (p n : Nat) (post : List Nat),
      tr.addrs.Nodup → tr.addrs = pre ++ p :: n :: post → tr.predecessor up n = some p := by
  intro tr
  induction tr with
  | nil => intro _ pre p n post _ h; simp [Tree.addrs] at h
  | node l a v c r ihl ihr =>
    intro up pre p n post hn hx
    obtain ⟨hnl, hnr, hal, har, hlr⟩ := nodup_node hn
    -- the step from the first node of the right subtree up to the top node
    have fromRight : ∀ post', r.addrs = n :: post' →
        (Tree.node l a v c r).predecessor up n = some a := by
      intro post' hr'
      have hnmem : n ∈ r.addrs := by rw [hr']; simp
      have hna : ¬ n = a := fun h0 => har (h0 ▸ hnmem)
      have hnl' : n ∉ l.addrs := fun h0 => hlr n h0 hnmem
      simp only [Tree.predecessor, hna, hnl', if_false]
      exact predecessor_first r (some a) n post' hnr hr'
    simp only [Tree.addrs] at hx
    rw [List.append_eq_append_iff] at hx
    rcases hx with ⟨a', _, ha'⟩ | ⟨c', hc1, hc2⟩
    · cases a' with
      | nil =>
        simp only [List.nil_append, List.cons.injEq] at ha'
        obtain ⟨rfl, hr'⟩ := ha'
        exact fromRight post hr'
      | cons y a'' =>
        simp only [List.cons_append, List.cons.injEq] at ha'
        have hnmem : n ∈ r.addrs := by rw [ha'.2]; simp
        have hna : ¬ n = a := fun h0 => har (h0 ▸ hnmem)
        have hnl' : n ∉ l.addrs := fun h0 => hlr n h0 hnmem
        simp only [Tree.predecessor, hna, hnl', if_false]
        exact ihr (some a) a'' p n post hnr ha'.2
    · cases c' with
      | nil =>
        simp only [List.nil_append, List.cons.injEq] at hc2
        obtain ⟨rfl, hr'⟩ := hc2
        exact fromRight post hr'.symm
      | cons y c'' =>
        simp only [List.cons_append, List.cons.injEq] at hc2
        obtain ⟨rfl, hc2⟩ := hc2
        cases c'' with
        | nil =>
          simp only [List.nil_append, List.cons.injEq] at hc2
          obtain ⟨rfl, _⟩ := hc2
          simp [Tree.predecessor, rightmost_eq_getLast, hc1]
        | cons z c''' =>
          simp only [List.cons_append, List.cons.injEq] at hc2
          obtain ⟨rfl, _⟩ := hc2
          have hnmem : n ∈ l.addrs := by rw [hc1]; simp
          have hna : ¬ n = a := fun h0 => hal (h0 ▸ hnmem)
          simp only [Tree.predecessor, hna, hnmem, if_false, if_true]
          exact ihl up pre p n c''' hnl hc1

theorem Example.wf5 : WellFormed Example.mem5 Example.bst5 Example.tree5 :=
  ⟨⟨1, rfl⟩, by decide⟩

theorem Example.wf6 : WellFormed Example.mem6 Example.bst6 Example.tree6 :=
  ⟨⟨3, rfl⟩, by decide⟩

/-- A well-formed tree object holds one tree only. -/
theorem WellFormed.unique {m : Mem T} {t : BST} {tr tr' : Tree T} (h : WellFormed m t tr)
    (h' : WellFormed m t tr') : tr' = tr := by
  obtain ⟨⟨f, hf⟩, _⟩ := h
  obtain ⟨⟨f', hf'⟩, _⟩ := h'
  exact reify_unique m f' f _ _ tr' tr hf' hf

/-- The first node in order has no node before it. -/
theorem no_node_before_first {l : List Nat} {a : Nat} {rest : List Nat} (hn : l.Nodup)
    (hx : l = a :: rest) : ¬ ∃ (pre : List Nat) (p : Nat) (post : List Nat),
      l = pre ++ p :: a :: post := by
  rintro ⟨pre, p, post, h⟩
  rw [h] at hn
  rw [hx] at h
  cases pre with
  | nil =>
    simp only [List.nil_append, List.cons.injEq] at h
    obtain ⟨rfl, _⟩ := h
    simp at hn
  | cons x pre' =>
    simp only [List.cons_append, List.cons.injEq] at h
    obtain ⟨rfl, _⟩ := h
    simp at hn

/-- Move assignment of a tree to itself leaves it empty: `clear()` empties the
one object and `swap` then exchanges it with itself. -/
theorem assignMove_self (fuel : Nat) (m : Mem T) (t : BST) (r : Mem T × BST)
    (h : clear fuel m t = .ok r) :
    assignMove fuel m t none =
      .ok (r.1, { root := none, numElements := 0 }, { root := none, numElements := 0 }) := by
  have hr : r.2 = { root := none, numElements := 0 } := by
    simp only [clear, bind, Except.bind] at h
    split at h
    · cases h
    · cases h; rfl
  obtain ⟨m', t'⟩ := r
  simp only at hr
  subst hr
  simp [assignMove, h, swap, bind, Except.bind, pure, Except.pure]

/-- Move assignment from another tree object hands over that object's root and
size and leaves it empty. -/
theorem assignMove_other (fuel : Nat) (m : Mem T) (t rhs : BST) (r : Mem T × BST)
    (h : clear fuel m t = .ok r) :
    assignMove fuel m t (some rhs) =
      .ok (r.1, { root := rhs.root, numElements := rhs.numElements },
        { root := none, numElements := 0 }) := by
  have hr : r.2 = { root := none, numElements := 0 } := by
    simp only [clear, bind, Except.bind] at h
    split at h
    · cases h
    · cases h; rfl
  obtain ⟨m', t'⟩ := r
  simp only at hr
  subst hr
  simp [assignMove, h, swap, bind, Except.bind, pure, Except.pure]

end Lemmas

/-! ## The claims of the specification, settled on the code -/

section Claims

open BST Example

/-- C1, run on the code: the default-constructed tree holds no value, yet
`insert(10, keepUnique)` returns `(end(), false)` for either flag and `size()`
is still 0 afterwards, where the claim asks for an iterator to a node holding
10, the flag `true` and `size()` one more than before. -/
theorem insert_absent_value_not_inserted :
    BST.construct.size = 0 ∧
    (∀ k : Bool, (BST.insert mem0 BST.construct 10 k).2.2 = (BST.construct.end, false)) ∧
    (∀ k : Bool, (BST.insert mem0 BST.construct 10 k).2.1.size = 0) ∧
    (∀ k : Bool, (BST.insertMove mem0 BST.construct 10 k).2.2 = (BST.construct.end, false)) := by
  refine ⟨rfl, ?_, ?_, ?_⟩ <;> intro k <;> rfl

/-- C2, run on the code: on the well-formed one-node tree that holds 10,
`insert(10, keepUnique = true)` leaves the tree as it was and returns the flag
`false`, but the iterator it returns is `end()`, not an iterator to the node
that holds 10 (address 1). -/
theorem insert_existing_value_returns_end :
    WellFormed mem1 bst1 tree1 ∧ tree1.values = [10] ∧
    BST.insert mem1 bst1 10 true = (mem1, bst1, (bst1.end, false)) ∧
    (BST.insert mem1 bst1 10 true).2.2.1 ≠ ⟨some 1⟩ := by
  refine ⟨⟨⟨1, rfl⟩, by decide⟩, rfl, rfl, by decide⟩

/-- C3, run on the code: on the well-formed, ordered one-node tree that holds
10, `find(10)` returns `end()` although a node with an equal value exists. -/
theorem find_existing_value_returns_end :
    WellFormed mem1 bst1 tree1 ∧ tree1.ordered = true ∧ tree1.values = [10] ∧
    BST.find mem1 bst1 10 = bst1.end ∧ BST.find mem1 bst1 10 ≠ ⟨some 1⟩ := by
  refine ⟨⟨⟨1, rfl⟩, by decide⟩, by decide, rfl, rfl, by decide⟩

/-- C5, run on the code: after inserting the pairwise distinct values
10, 5, 15, 3, 7, 12, 18 (uniqueness on) into a default-constructed tree, the
walk from `begin()` by `++` to `end()` yields no value at all, not
`[3, 5, 7, 10, 12, 15, 18]`. -/
theorem walk_after_inserts_is_empty :
    [10, 5, 15, 3, 7, 12, 18].Nodup ∧
    ∀ steps fuel : Nat,
      walk (steps + 1) fuel
        (insertAll mem0 BST.construct true [10, 5, 15, 3, 7, 12, 18]).1
        (insertAll mem0 BST.construct true [10, 5, 15, 3, 7, 12, 18]).2 = .ok [] := by
  refine ⟨by decide, ?_⟩
  intro steps fuel
  rfl

/-- C6, run on the code: in the well-formed one-node tree the only node is
last in order, and `erase` of it does not return `end()`: the `++itReturn`
inside `erase` calls `isLeftChild(pParent)` with a null `pParent` and reads
`pNode->pLeft` through it. -/
theorem erase_last_root_faults :
    WellFormed mem1 bst1 tree1 ∧
    (∀ fuel : Nat, iterator.increment fuel mem1 ⟨some 1⟩ = .error .nullDeref) ∧
    ∀ fuel : Nat, erase fuel mem1 bst1 ⟨some 1⟩ = .error .nullDeref := by
  refine ⟨⟨⟨1, rfl⟩, by decide⟩, ?_, ?_⟩ <;> intro fuel <;> rfl

/-- C7, run on the code: in the well-formed two-node tree with `size() == 2`
and two nodes reachable from root, `erase` of the leaf returns normally with
one node reachable from root and `size()` still 2; and the move constructor
gives the new tree the old root with `size() == 0`. -/
theorem erase_keeps_numElements :
    WellFormed mem2 bst2 tree2 ∧ bst2.size = 2 ∧
    BNode.computeSize 2 mem2 1 = .ok 2 ∧
    Returns (erase 2 mem2 bst2 ⟨some 2⟩)
      (fun r => r.2.1.root = some 1 ∧ BNode.computeSize 2 r.1 1 = .ok 1 ∧ r.2.1.size = 2) ∧
    (moveConstruct bst2).1.root = some 1 ∧ (moveConstruct bst2).1.size = 0 := by
  refine ⟨⟨⟨2, rfl⟩, by decide⟩, rfl, rfl, ⟨rfl, rfl, rfl⟩, rfl, rfl⟩

/-- C8, run on the code: in the well-formed, ordered three-node tree
`5, 10, 15` the root has two children, and `erase` of the root returns with
store and tree exactly as before, so the in-order sequence is still
`[5, 10, 15]` and not `[5, 15]`. -/
theorem erase_two_children_removes_nothing :
    WellFormed mem3 bst3 tree3 ∧ tree3.ordered = true ∧ tree3.values = [5, 10, 15] ∧
    ∀ fuel : Nat, erase (fuel + 1) mem3 bst3 ⟨some 1⟩ = .ok (mem3, bst3, ⟨some 3⟩) := by
  refine ⟨⟨⟨2, rfl⟩, by decide⟩, by decide, rfl, ?_⟩
  intro fuel
  rfl

/-- C9, run on the code: the three-node tree of black nodes `5, 10, 15`
satisfies red-black invariants 1 to 5, and after `erase` of the black leaf 5
the tree no longer does: the path to the root's absent left child passes one
black node, the paths below 15 pass two. -/
theorem erase_black_leaf_breaks_black_height :
    RedBlack mem3 bst3 ∧
    Returns (erase 2 mem3 bst3 ⟨some 2⟩)
      (fun r =>
        reify 2 r.1 r.2.1.root none = some (.node .nil 1 10 false (.node .nil 3 15 false .nil)) ∧
        ¬ RedBlack r.1 r.2.1) := by
  refine ⟨⟨tree3, ⟨⟨2, rfl⟩, by decide⟩, by decide⟩, ?_⟩
  have he : ∃ r, erase 2 mem3 bst3 ⟨some 2⟩ = .ok r ∧
      reify 2 r.1 r.2.1.root none = some (.node .nil 1 10 false (.node .nil 3 15 false .nil)) :=
    ⟨_, rfl, rfl⟩
  obtain ⟨r, hr, h⟩ := he
  rw [hr]
  refine ⟨h, fun hrb => ?_⟩
  have hb := redBlack_of_reify _ _ 2 _ h hrb
  revert hb
  decide

/-- C10, run on the code: on the well-formed one-node tree with `size() == 1`
the loop `while (!empty()) { it = begin(); erase(it); }` never ends normally:
its first `erase` reads through a null parent pointer, and no `erase` ever
lowers `size()`. -/
theorem erase_begin_loop_never_empties :
    WellFormed mem1 bst1 tree1 ∧ bst1.size = tree1.size ∧
    (∀ steps fuel : Nat, eraseAll (steps + 1) (fuel + 1) mem1 bst1 = .error .nullDeref) ∧
    ∀ (steps fuel : Nat) (r : Mem Nat × BST), eraseAll steps fuel mem1 bst1 ≠ .ok r := by
  refine ⟨⟨⟨1, rfl⟩, by decide⟩, rfl, ?_, ?_⟩
  · intro steps fuel
    rfl
  · intro steps fuel r
    exact eraseAll_never_returns steps fuel mem1 bst1 (by decide) r

/-- C11: for every store and every tree object, `erase` called with the end
iterator returns `end()` and leaves the store (every node and link) and the tree
object (root, size) as they were; it returns normally whatever the fuel. -/
theorem erase_end_is_noop {T : Type} (fuel : Nat) (m : Mem T) (t : BST) :
    erase fuel m t t.end = .ok (m, t, t.end) := by
  simp [erase, pure, Except.pure]

/-- C12: in a well-formed tree, when node `s` follows node `n` in order, `++`
applied to an iterator at `n` returns an iterator at `s`; and `s` is the
successor by position: the leftmost node of `n`'s right subtree when `n` has a
right child, otherwise the nearest ancestor of which `n` lies in the left
subtree. -/
theorem increment_reaches_successor {T : Type} (m : Mem T) (t : BST) (tr : Tree T)
    (pre post : List Nat) (n s fuel : Nat)
    (hwf : WellFormed m t tr) (hx : tr.addrs = pre ++ n :: s :: post)
    (hf : tr.height ≤ fuel) :
    iterator.increment fuel m ⟨some n⟩ = .ok ⟨some s⟩ ∧ tr.successor none n = some s := by
  obtain ⟨_, hrep, hnodup⟩ := hwf.rep
  exact ⟨increment_adjacent m tr none hrep hnodup pre n s post hx fuel hf,
    successor_adjacent tr none pre n s post hnodup hx⟩

/-- C12 at a concrete input: in the four-node tree `3, 5, 10, 15` the node
holding 5 (address 2) has no right child and is followed by the root (address
1). -/
theorem increment_reaches_successor_witness :
    WellFormed mem4 bst4 tree4 ∧ tree4.addrs = [4] ++ 2 :: 1 :: [3] ∧ tree4.height ≤ 3 ∧
      (iterator.increment 3 mem4 ⟨some 2⟩ = .ok ⟨some 1⟩ ∧ tree4.successor none 2 = some 1) :=
  ⟨Example.wf4, rfl, by decide,
    increment_reaches_successor mem4 bst4 tree4 [4] [3] 2 1 3 Example.wf4 rfl (by decide)⟩

/-- C13, run on the code: in the well-formed one-node tree, and in the
well-formed two-node tree whose root has only a left child, the root is the last
node in order, and `++` on an iterator at it does not return `end()`: it calls
`isLeftChild(pParent)` with a null `pParent`, which reads `pNode->pLeft` through
the null pointer. -/
theorem increment_last_root_faults :
    WellFormed mem1 bst1 tree1 ∧ tree1.addrs = [1] ∧
    BNode.isLeftChild mem1 1 none = .error .nullDeref ∧
    (∀ fuel : Nat, iterator.increment fuel mem1 ⟨some 1⟩ = .error .nullDeref) ∧
    WellFormed mem2 bst2 tree2 ∧ tree2.addrs = [2, 1] ∧
    (∀ fuel : Nat, iterator.increment fuel mem2 ⟨some 1⟩ = .error .nullDeref) :=
  ⟨Example.wf1, rfl, rfl, fun _ => rfl, Example.wf2, rfl, fun _ => rfl⟩

/-- C14: `++` and `--` applied to an end iterator return normally, whatever the
store and the fuel, and the iterator is still `end()`. -/
theorem increment_decrement_end_noop {T : Type} (fuel : Nat) (m : Mem T) (t : BST) :
    iterator.increment fuel m t.end = .ok t.end ∧
      iterator.decrement fuel m t.end = .ok t.end :=
  ⟨rfl, rfl⟩

/-- C15 as stated fails: in the well-formed three-node tree `5, 10, 15` the walk
by `++` from `begin()` to `end()` visits the three nodes, but `--` applied to
`end()` stays at `end()`, so the walk by `--` from `end()` never reaches
`begin()` and visits no node. -/
theorem decrement_from_end_never_reaches_begin :
    WellFormed mem3 bst3 tree3 ∧ begin 2 mem3 bst3 = .ok ⟨some 2⟩ ∧
    forwardUntil 4 2 mem3 ⟨some 2⟩ bst3.end = .ok [⟨some 2⟩, ⟨some 1⟩, ⟨some 3⟩, ⟨none⟩] ∧
    iterator.decrement 2 mem3 bst3.end = .ok bst3.end ∧
    ¬ ∃ (steps fuel : Nat) (visited : List iterator),
        backwardUntil steps fuel mem3 bst3.end ⟨some 2⟩ = .ok visited := by
  refine ⟨Example.wf3, rfl, rfl, rfl, ?_⟩
  rintro ⟨steps, fuel, visited, h⟩
  have := backwardUntil_from_end steps fuel mem3 2
  simp only [BST.end] at h
  rw [this] at h
  cases h

/-- C15 as amended: `--` leaves `end()` at `end()`; in a well-formed non-empty
tree with `size() != 0`, `begin()` is the first node in order, the walk by `++`
from `begin()` up to the last node in order visits the nodes in order, and the
walk by `--` from that last node until the iterator equals `begin()` visits them
in exactly the reverse order. -/
theorem backward_walk_reverses_forward_walk {T : Type} (m : Mem T) (t : BST) (tr : Tree T)
    (first last steps fuel : Nat)
    (hwf : WellFormed m t tr) (hne : t.numElements ≠ 0)
    (hfirst : tr.addrs.head? = some first) (hlast : tr.addrs.getLast? = some last)
    (hf : tr.height ≤ fuel) (hs : tr.addrs.length ≤ steps) :
    iterator.decrement fuel m t.end = .ok t.end ∧
    begin fuel m t = .ok ⟨some first⟩ ∧
    forwardUntil steps fuel m ⟨some first⟩ ⟨some last⟩ =
      .ok (tr.addrs.map (fun a => (⟨some a⟩ : iterator))) ∧
    backwardUntil steps fuel m ⟨some last⟩ ⟨some first⟩ =
      .ok ((tr.addrs.map (fun a => (⟨some a⟩ : iterator))).reverse) := by
  obtain ⟨_, hrep, hnodup⟩ := hwf.rep
  cases hx : tr.addrs with
  | nil => rw [hx] at hfirst; simp at hfirst
  | cons x xs =>
    have hfx : x = first := by rw [hx] at hfirst; simpa using hfirst
    subst hfx
    refine ⟨rfl, begin_first hwf hne x xs hx fuel hf, ?_, ?_⟩
    · rw [hx] at hlast hs
      simp only [List.length_cons] at hs
      exact forwardUntil_suffix tr hrep hnodup last fuel hf xs [] x (by simpa using hx) hlast
        steps (by omega)
    · -- the nodes in reverse order, last node first
      have hrl : (x :: xs).reverse.head? = some last := by
        rw [List.head?_reverse, ← hx]; exact hlast
      cases hrev : (x :: xs).reverse with
      | nil => simp at hrev
      | cons y ys =>
        rw [hrev] at hrl
        simp only [List.head?_cons, Option.some.injEq] at hrl
        subst hrl
        have hlen : ys.length < steps := by
          have h1 : (y :: ys).length = (x :: xs).length := by rw [← hrev]; simp
          rw [hx] at hs
          simp only [List.length_cons] at h1 hs
          omega
        have hgl : (y :: ys).getLast? = some x := by
          rw [← hrev, List.getLast?_reverse]; rfl
        have hadd : tr.addrs = (y :: ys).reverse ++ [] := by
          rw [← hrev, hx]; simp
        have := backwardUntil_prefix tr hrep hnodup x fuel hf ys [] y hadd hgl steps hlen
        rw [this, ← List.map_reverse, hrev]

/-- C15 as amended, at a concrete input: the four-node tree `3, 5, 10, 15`,
whose nodes in order are at addresses 4, 2, 1, 3. -/
theorem backward_walk_reverses_forward_walk_witness :
    WellFormed mem4 bst4 tree4 ∧ bst4.numElements ≠ 0 ∧ tree4.addrs.head? = some 4 ∧
    tree4.addrs.getLast? = some 3 ∧ tree4.height ≤ 3 ∧ tree4.addrs.length ≤ 4 ∧
    (iterator.decrement 3 mem4 bst4.end = .ok bst4.end ∧
     begin 3 mem4 bst4 = .ok ⟨some 4⟩ ∧
     forwardUntil 4 3 mem4 ⟨some 4⟩ ⟨some 3⟩ =
       .ok (tree4.addrs.map (fun a => (⟨some a⟩ : iterator))) ∧
     backwardUntil 4 3 mem4 ⟨some 3⟩ ⟨some 4⟩ =
       .ok ((tree4.addrs.map (fun a => (⟨some a⟩ : iterator))).reverse)) :=
  ⟨Example.wf4, by decide, rfl, rfl, by decide, by decide,
    backward_walk_reverses_forward_walk mem4 bst4 tree4 4 3 4 3 Example.wf4 (by decide) rfl rfl
      (by decide) (by decide)⟩

/-- C16, run on the code: move construction from the two-node tree with
`size() == 2` gives the new tree the old root and leaves the source with root
absent and `size() == 0`, but the new tree's `size()` is 0, not the source's
former 2. -/
theorem move_construct_drops_size :
    WellFormed mem2 bst2 tree2 ∧ bst2.size = 2 ∧
    (moveConstruct bst2).1.root = bst2.root ∧
    (moveConstruct bst2).2 = { root := none, numElements := 0 } ∧
    (moveConstruct bst2).1.size = 0 ∧
    begin 2 mem2 (moveConstruct bst2).1 = .ok (moveConstruct bst2).1.end :=
  ⟨Example.wf2, rfl, rfl, rfl, rfl, rfl⟩

/-- C17, run on the code: copy construction from the one-node tree that holds
10 yields a tree with root absent and `size() == 0`, holding no node at all,
and copy assignment leaves the target as it was; neither has the shape, values
or size of the source. -/
theorem copy_construct_is_empty :
    WellFormed mem1 bst1 tree1 ∧ tree1.values = [10] ∧ bst1.size = 1 ∧
    copyConstruct bst1 = { root := none, numElements := 0 } ∧
    (copyConstruct bst1).size = 0 ∧
    WellFormed mem1 (copyConstruct bst1) (.nil : Tree Nat) ∧
    assign BST.construct bst1 = BST.construct :=
  ⟨Example.wf1, rfl, rfl, rfl, rfl, ⟨⟨0, rfl⟩, List.nodup_nil⟩, rfl⟩

/-- C18, run on the code: the tree constructed (or assigned) from the list
`[1, 2, 3, 4, 5]` has root absent and `size() == 0`, not 5, and the walk from
`begin()` to `end()` yields no value. -/
theorem construct_from_list_is_empty :
    ([1, 2, 3, 4, 5] : List Nat).length = 5 ∧
    (∀ fuel : Nat, Returns (constructList fuel mem0 [1, 2, 3, 4, 5])
      (fun r => r.2 = { root := none, numElements := 0 } ∧ r.2.size = 0 ∧
        ∀ steps fuel' : Nat, walk (steps + 1) fuel' r.1 r.2 = .ok [])) ∧
    (∀ fuel : Nat, Returns (assignList fuel mem0 BST.construct [1, 2, 3, 4, 5])
      (fun r => r.2 = { root := none, numElements := 0 } ∧ r.2.size = 0)) := by
  refine ⟨rfl, ?_, ?_⟩
  · intro fuel
    have h : constructList fuel mem0 [1, 2, 3, 4, 5] = .ok (mem0, BST.construct) := by
      cases fuel <;> rfl
    rw [h]
    exact ⟨rfl, rfl, fun _ _ => rfl⟩
  · intro fuel
    have h : assignList fuel mem0 BST.construct [1, 2, 3, 4, 5] = .ok (mem0, BST.construct) := by
      cases fuel <;> rfl
    rw [h]
    exact ⟨rfl, rfl⟩

/-- C19: on a well-formed tree `clear()` returns normally and leaves root
absent and `size() == 0`, so that `empty()` is true and `begin() == end()`;
every node of the tree has been deleted and nothing else in the store has
changed; applied to an already empty tree it changes nothing at all. -/
theorem clear_leaves_empty_tree {T : Type} (m : Mem T) (t : BST) (tr : Tree T) (fuel : Nat)
    (hwf : WellFormed m t tr) (hf : tr.height ≤ fuel) :
    (∃ m' t', clear fuel m t = .ok (m', t') ∧ t'.root = none ∧ t'.size = 0 ∧
      t'.empty = true ∧ begin fuel m' t' = .ok t'.end ∧
      (∀ x ∈ tr.addrs, m' x = none) ∧ (∀ x, x ∉ tr.addrs → m' x = m x)) ∧
    (t = BST.construct → clear fuel m t = .ok (m, t)) := by
  obtain ⟨hrp, hrep, hnodup⟩ := hwf.rep
  obtain ⟨m', h1, h2, h3⟩ := clearNode_tree tr m none fuel hrep hnodup hf
  rw [hrp] at h1
  refine ⟨⟨m', { root := none, numElements := 0 }, ?_, rfl, rfl, rfl, rfl, h2, h3⟩, ?_⟩
  · simp [clear, h1, bind, Except.bind, pure, Except.pure]
  · intro ht
    subst ht
    simp [clear, BST.construct, clearNode_none, bind, Except.bind, pure, Except.pure]

/-- C19 at a concrete input: the three-node tree `5, 10, 15`. -/
theorem clear_leaves_empty_tree_witness :
    WellFormed mem3 bst3 tree3 ∧ tree3.height ≤ 2 ∧
    ((∃ m' t', clear 2 mem3 bst3 = .ok (m', t') ∧ t'.root = none ∧ t'.size = 0 ∧
      t'.empty = true ∧ begin 2 m' t' = .ok t'.end ∧
      (∀ x ∈ tree3.addrs, m' x = none) ∧ (∀ x, x ∉ tree3.addrs → m' x = mem3 x)) ∧
    (bst3 = BST.construct → clear 2 mem3 bst3 = .ok (mem3, bst3))) :=
  ⟨Example.wf3, by decide, clear_leaves_empty_tree mem3 bst3 tree3 2 Example.wf3 (by decide)⟩

/-- C20: in a well-formed tree, `erase` of a live node `n` that is not the root
and has at most one child returns normally; afterwards the store holds a
well-formed tree below the same root in which `n` no longer occurs (so every
remaining parent link and child slot agree), the child of `n`, if any, has `n`'s
former parent as its parent, and the in-order sequence of nodes and of values is
the one before the call with `n` and its value taken out. -/
theorem erase_one_child_splices {T : Type} (m : Mem T) (t : BST) (tr : Tree T) (n : Nat)
    (nd : BNode T) (fuel : Nat)
    (hwf : WellFormed m t tr) (hlive : n ∈ tr.addrs) (hroot : t.root ≠ some n)
    (hnd : m n = some nd) (hone : nd.pLeft = none ∨ nd.pRight = none)
    (hf : tr.height ≤ fuel) :
    ∃ (m' : Mem T) (it' : iterator) (tr' : Tree T) (pre post : List (Nat × T)),
      erase fuel m t ⟨some n⟩ = .ok (m', t, it') ∧
      WellFormed m' t tr' ∧ m' n = none ∧ n ∉ tr'.addrs ∧
      (∀ cc, nd.pLeft = some cc ∨ nd.pRight = some cc →
        ∃ cd, m' cc = some cd ∧ cd.pParent = nd.pParent) ∧
      tr.entries = pre ++ (n, nd.data) :: post ∧ tr'.entries = pre ++ post ∧
      tr.values = pre.map Prod.snd ++ nd.data :: post.map Prod.snd ∧
      tr'.values = pre.map Prod.snd ++ post.map Prod.snd := by
  obtain ⟨hrp, hrep, hnodup⟩ := hwf.rep
  have hroot' : tr.rootPtr ≠ some n := by rw [hrp]; exact hroot
  obtain ⟨p, pd, hp, hpd, hpn, hkids⟩ := node_facts hnd tr none hrep hnodup hlive hroot'
  obtain ⟨preA, postA, hsplit⟩ := List.append_of_mem hlive
  have hinc := increment_nonroot tr hrep hnodup preA postA n hsplit hroot' fuel hf
  -- the one child, if any
  obtain ⟨c, hc⟩ : ∃ c : Option Nat,
      (nd.pLeft = none ∧ c = nd.pRight) ∨ (nd.pRight = none ∧ c = nd.pLeft) := by
    rcases hone with h | h
    · exact ⟨nd.pRight, Or.inl ⟨h, rfl⟩⟩
    · exact ⟨nd.pLeft, Or.inr ⟨h, rfl⟩⟩
  have hch : ∀ cc, c = some cc → cc ≠ n ∧ cc ≠ p ∧ ∃ cd, m cc = some cd := by
    intro cc hcc
    refine hkids cc ?_
    rcases hc with ⟨_, h⟩ | ⟨_, h⟩
    · exact Or.inr (h ▸ hcc)
    · exact Or.inl (h ▸ hcc)
  obtain ⟨m', he, P1, P2, P3, P4⟩ := erase_store fuel t _ hnd hp hpd hpn hc hch hinc
  obtain ⟨s1, s2, _, _, pre, post, v, s5, s6⟩ :=
    splice_rep hnd hp hpd hc P2 P3 P4 tr none hrep hnodup hlive hroot'
  have hv : nd.data = v := by
    obtain ⟨nd', h1, h2⟩ := rep_entry tr none n v hrep (by rw [s5]; simp)
    rw [hnd, Option.some.injEq] at h1
    rw [h1, h2]
  subst hv
  have haddrs : tr.addrs = pre.map Prod.fst ++ n :: post.map Prod.fst := by
    rw [← entries_map_fst, s5]; simp
  have haddrs' : (tr.splice n).addrs = pre.map Prod.fst ++ post.map Prod.fst := by
    rw [← entries_map_fst, s6]; simp
  rw [haddrs] at hnodup
  have hnd2 : (pre.map Prod.fst ++ post.map Prod.fst).Nodup := by
    refine hnodup.sublist ?_
    exact List.Sublist.append_left (List.sublist_cons_self _ _) _
  have hnot : n ∉ pre.map Prod.fst ++ post.map Prod.fst := by
    rw [List.nodup_append] at hnodup
    obtain ⟨_, h2, h3⟩ := hnodup
    rw [List.nodup_cons] at h2
    intro h0
    rcases List.mem_append.mp h0 with h0 | h0
    · exact h3 h0 (List.mem_cons_self _ _)
    · exact h2.1 h0
  refine ⟨m', _, tr.splice n, pre, post, he, ?_, P1, ?_, ?_, s5, s6, ?_, ?_⟩
  · exact WellFormed.of_rep (by rw [s2, hrp]) s1 (by rw [haddrs']; exact hnd2)
  · rw [haddrs']; exact hnot
  · intro cc hcc
    obtain ⟨_, _, cd, hcd⟩ := hkids cc hcc
    have hcc' : c = some cc := by
      rcases hc with ⟨h1, h2⟩ | ⟨h1, h2⟩
      · rcases hcc with h | h
        · rw [h1] at h; simp at h
        · rw [h2, h]
      · rcases hcc with h | h
        · rw [h2, h]
        · rw [h1] at h; simp at h
    exact ⟨_, P3 cc cd hcc' hcd, hp.symm⟩
  · rw [← entries_map_snd, s5]; simp
  · rw [← entries_map_snd, s6]; simp

/-- C20 at a concrete input: in the four-node tree `3, 5, 10, 15` the node
holding 5 (address 2) is not the root and has only a left child. -/
theorem erase_one_child_splices_witness :
    WellFormed mem4 bst4 tree4 ∧ 2 ∈ tree4.addrs ∧ bst4.root ≠ some 2 ∧
    mem4 2 = some { data := 5, pLeft := some 4, pRight := none, pParent := some 1,
                    isRed := false } ∧
    tree4.height ≤ 3 ∧
    ∃ (m' : Mem Nat) (it' : iterator) (tr' : Tree Nat) (pre post : List (Nat × Nat)),
      erase 3 mem4 bst4 ⟨some 2⟩ = .ok (m', bst4, it') ∧
      WellFormed m' bst4 tr' ∧ m' 2 = none ∧ 2 ∉ tr'.addrs ∧
      (∀ cc, some 4 = some cc ∨ none = some cc →
        ∃ cd, m' cc = some cd ∧ cd.pParent = some 1) ∧
      tree4.entries = pre ++ (2, 5) :: post ∧ tr'.entries = pre ++ post ∧
      tree4.values = pre.map Prod.snd ++ 5 :: post.map Prod.snd ∧
      tr'.values = pre.map Prod.snd ++ post.map Prod.snd :=
  ⟨Example.wf4, by decide, by decide, rfl, by decide,
    erase_one_child_splices mem4 bst4 tree4 2 _ 3 Example.wf4 (by decide) (by decide) rfl
      (Or.inr rfl) (by decide)⟩

/-- C21: in a well-formed tree, when node `p` precedes node `n` in order, `--`
applied to an iterator at `n` returns an iterator at `p`, and `p` is the
predecessor by position: the rightmost node of `n`'s left subtree when `n` has a
left child, otherwise the nearest ancestor of which `n` lies in the right
subtree.  Consequently `--` undoes `++`: from `p`, which is not last in order,
`++` followed by `--` returns to `p`. -/
theorem decrement_reaches_predecessor {T : Type} (m : Mem T) (t : BST) (tr : Tree T)
    (pre post : List Nat) (p n fuel : Nat)
    (hwf : WellFormed m t tr) (hx : tr.addrs = pre ++ p :: n :: post)
    (hf : tr.height ≤ fuel) :
    iterator.decrement fuel m ⟨some n⟩ = .ok ⟨some p⟩ ∧ tr.predecessor none n = some p ∧
      (iterator.increment fuel m ⟨some p⟩ >>= iterator.decrement fuel m) = .ok ⟨some p⟩ := by
  obtain ⟨_, hrep, hnodup⟩ := hwf.rep
  have hdec := decrement_adjacent m tr none hrep hnodup pre p n post hx fuel hf
  have hinc := increment_adjacent m tr none hrep hnodup pre p n post hx fuel hf
  refine ⟨hdec, predecessor_adjacent tr none pre p n post hnodup hx, ?_⟩
  rw [hinc]
  exact hdec

/-- C21 at a concrete input: in the four-node tree `3, 5, 10, 15` the root
(address 1) has a left child, and the node before it in order is the one holding
5 (address 2). -/
theorem decrement_reaches_predecessor_witness :
    WellFormed mem4 bst4 tree4 ∧ tree4.addrs = [4] ++ 2 :: 1 :: [3] ∧ tree4.height ≤ 3 ∧
      (iterator.decrement 3 mem4 ⟨some 1⟩ = .ok ⟨some 2⟩ ∧ tree4.predecessor none 1 = some 2 ∧
        (iterator.increment 3 mem4 ⟨some 2⟩ >>= iterator.decrement 3 mem4) = .ok ⟨some 2⟩) :=
  ⟨Example.wf4, rfl, by decide,
    decrement_reaches_predecessor mem4 bst4 tree4 [4] [3] 2 1 3 Example.wf4 rfl (by decide)⟩

/-- C22, run on the code: `balance()` has an empty body.  On the one-node tree
whose root is red (red-black rules 3 and 4 hold, the red node is the root) the
root is still red after `balance()`; on the tree `3, 5, 10` in which the red
node 3 has the red parent 5 (root black, equal black counts) the red node still
has a red child after `balance()` on node 3. -/
theorem balance_changes_nothing :
    WellFormed mem5 bst5 tree5 ∧ tree5.noRedRed = true ∧ tree5.blackBalanced = true ∧
    tree5.isRedRoot = true ∧
    BNode.balance mem5 1 = .ok mem5 ∧
    Returns (BNode.balance mem5 1)
      (fun m' => ∀ tr : Tree Nat, WellFormed m' bst5 tr → tr.rootBlack = false) ∧
    WellFormed mem6 bst6 tree6 ∧ tree6.rootBlack = true ∧ tree6.blackBalanced = true ∧
    mem6 4 = some { data := 3, pLeft := none, pRight := none, pParent := some 2,
                    isRed := true } ∧
    BNode.balance mem6 4 = .ok mem6 ∧
    Returns (BNode.balance mem6 4)
      (fun m' => ∀ tr : Tree Nat, WellFormed m' bst6 tr → tr.noRedRed = false) := by
  refine ⟨Example.wf5, by decide, by decide, rfl, rfl, ?_, Example.wf6, by decide, by decide,
    rfl, rfl, ?_⟩
  · intro tr h
    rw [WellFormed.unique Example.wf5 h]
    decide
  · intro tr h
    rw [WellFormed.unique Example.wf6 h]
    decide

/-- C23 as stated fails: the tree object that move construction makes from the
two-node tree has its root present and its links well formed, yet `begin()` on
it returns `end()`, because `begin()` asks `empty()`, that is `size() == 0`, and
not whether root is absent. -/
theorem begin_is_end_on_nonempty_tree :
    (moveConstruct bst2).1 = { root := some 1, numElements := 0 } ∧
    WellFormed mem2 (moveConstruct bst2).1 tree2 ∧ tree2.addrs = [2, 1] ∧
    (moveConstruct bst2).1.root ≠ none ∧
    ∀ fuel : Nat, begin fuel mem2 (moveConstruct bst2).1 = .ok (moveConstruct bst2).1.end :=
  ⟨rfl, ⟨⟨2, rfl⟩, by decide⟩, rfl, by decide, fun _ => rfl⟩

/-- C23 as amended: for every well-formed tree whose `size()` equals the number
of its nodes, `begin()` returns normally; it equals `end()` if and only if root
is absent, that is if and only if the tree has no nodes; otherwise it references
the leftmost node reached from root by left links, which is first in order and
has no in-order predecessor. -/
theorem begin_is_leftmost {T : Type} (m : Mem T) (t : BST) (tr : Tree T) (fuel : Nat)
    (hwf : WellFormed m t tr) (hsize : t.size = tr.size) (hf : tr.height ≤ fuel) :
    ∃ it, begin fuel m t = .ok it ∧ (it = t.end ↔ t.root = none) ∧
      (t.root = none ↔ tr.addrs = []) ∧
      (t.root ≠ none →
        it.pNode = tr.leftmost ∧
        ∃ (a : Nat) (rest : List Nat), it.pNode = some a ∧ tr.addrs = a :: rest ∧
          tr.predecessor none a = none ∧
          ¬ ∃ (pre : List Nat) (p : Nat) (post : List Nat), tr.addrs = pre ++ p :: a :: post) := by
  obtain ⟨hrp, _, hnodup⟩ := hwf.rep
  cases tr with
  | nil =>
    have hroot : t.root = none := by rw [← hrp]; rfl
    have he : t.empty = true := by
      simp only [Tree.size] at hsize
      simp [empty, hsize]
    refine ⟨t.end, by simp [begin, he, pure, Except.pure], by simp [hroot], by simp [hroot, Tree.addrs], ?_⟩
    intro h
    exact absurd hroot h
  | node l b v c r =>
    have hroot : t.root = some b := by rw [← hrp]; rfl
    have hne : t.numElements ≠ 0 := by
      simp only [size, Tree.size] at hsize
      omega
    obtain ⟨a, rest, hx⟩ : ∃ a rest, (Tree.node l b v c r).addrs = a :: rest := by
      cases h : (Tree.node l b v c r).addrs with
      | nil => exact absurd h addrs_node_ne_nil
      | cons a rest => exact ⟨a, rest, rfl⟩
    refine ⟨⟨some a⟩, begin_first hwf hne a rest hx fuel hf, ?_, ?_, ?_⟩
    · simp [hroot, BST.end]
    · simp [hroot, hx]
    · intro _
      refine ⟨?_, a, rest, rfl, hx, predecessor_first _ none a rest hnodup hx,
        no_node_before_first hnodup hx⟩
      rw [leftmost_eq_head, hx]
      rfl

/-- C23 as amended, at a concrete input: the four-node tree `3, 5, 10, 15` with
`size() == 4`, whose leftmost node is the one holding 3 (address 4). -/
theorem begin_is_leftmost_witness :
    WellFormed mem4 bst4 tree4 ∧ bst4.size = tree4.size ∧ tree4.height ≤ 3 ∧
    ∃ it, begin 3 mem4 bst4 = .ok it ∧ (it = bst4.end ↔ bst4.root = none) ∧
      (bst4.root = none ↔ tree4.addrs = []) ∧
      (bst4.root ≠ none →
        it.pNode = tree4.leftmost ∧
        ∃ (a : Nat) (rest : List Nat), it.pNode = some a ∧ tree4.addrs = a :: rest ∧
          tree4.predecessor none a = none ∧
          ¬ ∃ (pre : List Nat) (p : Nat) (post : List Nat),
              tree4.addrs = pre ++ p :: a :: post) :=
  ⟨Example.wf4, by decide, by decide,
    begin_is_leftmost mem4 bst4 tree4 3 Example.wf4 (by decide) (by decide)⟩

end Claims

end custom
